import Mathlib

/-!
# wordle-helper: the candidate-pruning engine of `main.go`

A shallow embedding of the dictionary records, the scrub operations and the
guess prompt of `main.go`, followed by the properties proved about them.

Conventions of the embedding

* A Go `rune` held by the program is always the result of decoding a string
  (or the zero value), so it is a Unicode scalar value: runes are `Char`.
* A Go `string` is a `String`; Go compares strings bytewise, which for
  well-formed UTF-8 is equality of the character sequences.  `len(s)` is the
  UTF-8 byte length and `range s` yields byte offsets.
* The global slice `dictionaryWords` is a `List DictionaryWord`; the loops
  `for i, dictionaryWord := range dictionaryWords` touch only the element at
  index `i`, so they are maps over the list.
* `dictionaryWord.Letters[position]` is read with `[position]?`: every record
  is built with `make([]rune, 5)` and every call site passes a position below
  five, so the read is in range in the program.
* The line scanner is the list of lines still to be read.
* A run-time panic (a store out of range) and `os.Exit` are outcomes of their
  own; `newDictionaryWord`, the one function that can panic before its result
  exists, returns an `Option`.
* The library function `strings.ToUpper` maps every rune through
  `unicode.ToUpper`, which the general statements take as a parameter `upper`
  that is only assumed to send a-z to A-Z and to fix the other ASCII
  characters; the constants of the package `go-color` are a parameter too.
-/

namespace WordleHelper

/-! ## Data model (`main.go` lines 14-90) -/

def GuessPositionUnknown : Nat := 0
def GuessPositionWrong : Nat := 1
def GuessPositionMisplaced : Nat := 2
def GuessPositionCorrect : Nat := 3

/-- The record `DictionaryWord` of `main.go`. -/
structure DictionaryWord where
  Value : Nat
  Valid : Bool
  Letters : List Char
  deriving DecidableEq, Repr

/-- The record `GuessPosition` of `main.go`. -/
structure GuessPosition where
  Letter : Char
  Status : Nat
  deriving DecidableEq, Repr

/-- The record `Guess` of `main.go`. -/
structure Guess where
  Valid : Bool
  Positions : List GuessPosition
  deriving DecidableEq, Repr

/-- The function `newGuess`: five zero-valued positions, not valid. -/
def newGuess : Guess :=
  { Positions := List.replicate 5 ⟨Char.ofNat 0, 0⟩, Valid := false }

/-- The method `DictionaryWord.getWord`: the letters appended one by one to
the empty string. -/
def DictionaryWord.getWord (dw : DictionaryWord) : String :=
  dw.Letters.foldl (fun str letter => str ++ String.singleton letter) ""

/-- The method `Guess.getWord`. -/
def Guess.getWord (g : Guess) : String :=
  g.Positions.foldl (fun str position => str ++ String.singleton position.Letter) ""

/-! ## Scrub operations (`main.go` lines 427-475) -/

/-- The function `scrubWord`: every record spelling `word` loses its flag
(live or not). -/
def scrubWord (word : String) (dictionaryWords : List DictionaryWord) :
    List DictionaryWord :=
  dictionaryWords.map fun dictionaryWord =>
    if dictionaryWord.getWord = word then { dictionaryWord with Valid := false }
    else dictionaryWord

/-- The function `scrubPositionWrong`. -/
def scrubPositionWrong (position : Nat) (letter : Char)
    (dictionaryWords : List DictionaryWord) : List DictionaryWord :=
  dictionaryWords.map fun dictionaryWord =>
    if !dictionaryWord.Valid then dictionaryWord
    else if dictionaryWord.Letters[position]? = some letter then
      { dictionaryWord with Valid := false }
    else dictionaryWord

/-- The function `scrubPositionCorrect`. -/
def scrubPositionCorrect (position : Nat) (letter : Char)
    (dictionaryWords : List DictionaryWord) : List DictionaryWord :=
  dictionaryWords.map fun dictionaryWord =>
    if !dictionaryWord.Valid then dictionaryWord
    else if dictionaryWord.Letters[position]? ≠ some letter then
      { dictionaryWord with Valid := false }
    else dictionaryWord

/-- The inner loop of `scrubLetterMustBePresent`: the flag, already cleared,
is set again at the first occurrence of `letter`, where the loop breaks. -/
def letterPresentLoop (letter : Char) : List Char → Bool → Bool
  | [], valid => valid
  | dwLetter :: rest, valid =>
    if dwLetter = letter then true else letterPresentLoop letter rest valid

/-- The function `scrubLetterMustBePresent`. -/
def scrubLetterMustBePresent (letter : Char)
    (dictionaryWords : List DictionaryWord) : List DictionaryWord :=
  dictionaryWords.map fun dictionaryWord =>
    if !dictionaryWord.Valid then dictionaryWord
    else { dictionaryWord with Valid := letterPresentLoop letter dictionaryWord.Letters false }

/-! ## The guess prompt (`main.go` lines 251-407) -/

/-- The number of bytes of the UTF-8 encoding of a rune. -/
def runeLen (c : Char) : Nat :=
  if c.toNat < 0x80 then 1
  else if c.toNat < 0x800 then 2
  else if c.toNat < 0x10000 then 3
  else 4

/-- The builtin `len` on a string: its length in bytes. -/
def byteLen (s : String) : Nat :=
  (s.toList.map runeLen).sum

/-- How the inner `for` of one guess position ends. -/
inductive PositionResult where
  /-- The position was stored in the guess (the final `break`). -/
  | assigned (guess : Guess) (dictionaryWords : List DictionaryWord) (input : List String)
  /-- The character is not a letter (`break guessLoop`). -/
  | invalid (guess : Guess) (dictionaryWords : List DictionaryWord) (input : List String)
  /-- The status `q` was entered (`os.Exit`). -/
  | quit (dictionaryWords : List DictionaryWord)
  /-- The input ended: the prompt reads empty lines for ever. -/
  | starved (dictionaryWords : List DictionaryWord)

/-- The inner `for` of `promptGuess` (lines 280-337) for the character
`letter` found at byte offset `guessPosition`. An unknown status repeats the
loop with the letter as it then stands. -/
def positionLoop (realGuess : Bool) (guessPosition : Nat) (guess : Guess) :
    Char → List DictionaryWord → List String → PositionResult
  | letter, dictionaryWords, input =>
    let guessPositionCast := guessPosition % 256
    let letterIsUpper := decide ('A'.toNat ≤ letter.toNat) && decide (letter.toNat ≤ 'Z'.toNat)
    let letterIsLower := decide ('a'.toNat ≤ letter.toNat) && decide (letter.toNat ≤ 'z'.toNat)
    if !(letterIsUpper || letterIsLower) then
      .invalid { guess with Valid := false } dictionaryWords input
    else
      let letter := if letterIsLower then Char.ofNat (letter.toNat - 32) else letter
      if realGuess then
        match input with
        | [] => .starved dictionaryWords
        | status :: input =>
          if status = "h" then
            .assigned { guess with Positions :=
                guess.Positions.set guessPositionCast ⟨letter, GuessPositionUnknown⟩ }
              dictionaryWords input
          else if status = "w" then
            .assigned { guess with Positions :=
                guess.Positions.set guessPositionCast ⟨letter, GuessPositionWrong⟩ }
              (scrubPositionWrong guessPositionCast letter dictionaryWords) input
          else if status = "m" then
            .assigned { guess with Positions :=
                guess.Positions.set guessPositionCast ⟨letter, GuessPositionMisplaced⟩ }
              (scrubPositionWrong guessPositionCast letter dictionaryWords) input
          else if status = "c" then
            .assigned { guess with Positions :=
                guess.Positions.set guessPositionCast ⟨letter, GuessPositionCorrect⟩ }
              (scrubPositionCorrect guessPositionCast letter dictionaryWords) input
          else if status = "q" then .quit dictionaryWords
          else positionLoop realGuess guessPosition guess letter dictionaryWords input
      else
        .assigned { guess with Positions :=
            guess.Positions.set guessPositionCast ⟨letter, GuessPositionUnknown⟩ }
          dictionaryWords input

/-- How the loop labelled `guessLoop` ends. -/
inductive GuessLoopResult where
  | done (guess : Guess) (dictionaryWords : List DictionaryWord) (input : List String)
  | quit (dictionaryWords : List DictionaryWord)
  | starved (dictionaryWords : List DictionaryWord)

/-- The loop `guessLoop: for guessPosition, letter := range word`, from the
character at byte offset `guessPosition` on. -/
def guessLoop (realGuess : Bool) :
    Nat → List Char → Guess → List DictionaryWord → List String → GuessLoopResult
  | _, [], guess, dictionaryWords, input => .done guess dictionaryWords input
  | guessPosition, letter :: word, guess, dictionaryWords, input =>
    match positionLoop realGuess guessPosition guess letter dictionaryWords input with
    | .assigned guess dictionaryWords input =>
      guessLoop realGuess (guessPosition + runeLen letter) word guess dictionaryWords input
    | .invalid guess dictionaryWords input => .done guess dictionaryWords input
    | .quit dictionaryWords => .quit dictionaryWords
    | .starved dictionaryWords => .starved dictionaryWords

/-- The three maps of lines 354-356 and the dictionary, as the classification
loop updates them. A map is its lookup function; `misplacedLetters`, the one
map that is ranged over, is the list of its keys. -/
structure Classification where
  correctLetterPositions : Char → Option (List Nat)
  wrongLetters : Char → Option Bool
  misplacedLetters : List Char
  dictionaryWords : List DictionaryWord

/-- One turn of the `switch` of lines 359-368. -/
def classifyPosition (i : Nat) (guessPosition : GuessPosition) (k : Classification) :
    Classification :=
  if guessPosition.Status = GuessPositionWrong then
    { k with wrongLetters := Function.update k.wrongLetters guessPosition.Letter (some true) }
  else if guessPosition.Status = GuessPositionMisplaced then
    { k with
      misplacedLetters := guessPosition.Letter :: k.misplacedLetters
      dictionaryWords := scrubLetterMustBePresent guessPosition.Letter k.dictionaryWords }
  else if guessPosition.Status = GuessPositionCorrect then
    let positions := (k.correctLetterPositions guessPosition.Letter).getD [] ++ [i]
    { k with correctLetterPositions :=
        Function.update k.correctLetterPositions guessPosition.Letter (some positions) }
  else k

/-- The loop `for i, guessPosition := range guess.Positions` of lines 358-369. -/
def classifyLoop : Nat → List GuessPosition → Classification → Classification
  | _, [], k => k
  | i, guessPosition :: rest, k => classifyLoop (i + 1) rest (classifyPosition i guessPosition k)

/-- The loop of lines 371-374: every misplaced letter is deleted from the
other two maps. -/
def deleteMisplaced : List Char → Classification → Classification
  | [], k => k
  | misplacedLetter :: rest, k =>
    deleteMisplaced rest
      { k with
        wrongLetters := Function.update k.wrongLetters misplacedLetter none
        correctLetterPositions := Function.update k.correctLetterPositions misplacedLetter none }

/-- The loop `for j, dwLetter := range dictionaryWord.Letters` of lines
381-400, from index `j` on; `valid` is the flag of the record. -/
def completeLetterLoop (wrongLetters : Char → Option Bool)
    (correctLetterPositions : Char → Option (List Nat)) : Nat → List Char → Bool → Bool
  | _, [], valid => valid
  | j, dwLetter :: rest, valid =>
    let wrongLetterPresent := (wrongLetters dwLetter).isSome
    let correctLetterPresent := (correctLetterPositions dwLetter).isSome
    if !wrongLetterPresent then
      completeLetterLoop wrongLetters correctLetterPositions (j + 1) rest valid
    else if !correctLetterPresent then false
    else if !((correctLetterPositions dwLetter).getD []).contains j then false
    else valid

/-- The complete-letter pass of lines 376-401. -/
def completeLetterPass (wrongLetters : Char → Option Bool)
    (correctLetterPositions : Char → Option (List Nat))
    (dictionaryWords : List DictionaryWord) : List DictionaryWord :=
  dictionaryWords.map fun dictionaryWord =>
    if !dictionaryWord.Valid then dictionaryWord
    else { dictionaryWord with
      Valid := completeLetterLoop wrongLetters correctLetterPositions 0 dictionaryWord.Letters true }

/-- Lines 354-401: what `promptGuess` does to the dictionary once the guess
is stored in the history. -/
def finalizeGuess (guess : Guess) (dictionaryWords : List DictionaryWord) :
    List DictionaryWord :=
  let k := classifyLoop 0 guess.Positions
    { correctLetterPositions := fun _ => none
      wrongLetters := fun _ => none
      misplacedLetters := []
      dictionaryWords := dictionaryWords }
  let k := deleteMisplaced k.misplacedLetters k
  completeLetterPass k.wrongLetters k.correctLetterPositions k.dictionaryWords

/-- The global variables of `main.go` (lines 86-90). -/
structure State where
  dictionaryWords : List DictionaryWord
  currentGuess : Nat
  guesses : List Guess
  deriving DecidableEq, Repr

/-- How a call of `promptGuess` ends. -/
inductive Outcome where
  /-- The call returns `guess`. -/
  | returned (guess : Guess) (state : State) (input : List String)
  /-- The process exits through `quit`. -/
  | quit (state : State)
  /-- The store `guesses[currentGuess] = guess` is out of range: the Go
  runtime panics and the process dies. -/
  | panicked (state : State)
  /-- The input ended: the prompt reads empty lines for ever. -/
  | starved (state : State)
  deriving DecidableEq, Repr

/-- The function `promptGuess`. -/
def promptGuess (realGuess : Bool) : State → List String → Outcome
  | state, [] => .starved state
  | state, word :: input =>
    if word = "q" then .quit state
    else if word = "h" then promptGuess realGuess state input
    else if byteLen word ≠ 5 then promptGuess realGuess state input
    else
      match guessLoop realGuess 0 word.toList { newGuess with Valid := true }
          state.dictionaryWords input with
      | .quit dictionaryWords => .quit { state with dictionaryWords := dictionaryWords }
      | .starved dictionaryWords => .starved { state with dictionaryWords := dictionaryWords }
      | .done guess dictionaryWords input =>
        if !(guess.Valid && realGuess) then
          .returned guess { state with dictionaryWords := dictionaryWords } input
        else if state.currentGuess < state.guesses.length then
          .returned guess
            { dictionaryWords := finalizeGuess guess dictionaryWords
              currentGuess := (state.currentGuess + 1) % 256
              guesses := state.guesses.set state.currentGuess guess }
            input
        else .panicked { state with dictionaryWords := dictionaryWords }

/-- The globals as `init` leaves them (lines 139-141) over a loaded and
scrubbed dictionary: round zero and five zero-valued guesses. -/
def initState (dictionaryWords : List DictionaryWord) : State :=
  { dictionaryWords := dictionaryWords
    currentGuess := 0
    guesses := List.replicate 5 { Valid := false, Positions := [] } }

/-! ## The command `p` (`main.go` lines 409-425) -/

/-- The loop of `showTopPossibilities`, with `shown` words printed so far:
the lines it prints. -/
def showTopLoop : List DictionaryWord → Nat → List String
  | [], _ => []
  | dictionaryWord :: rest, shown =>
    if !dictionaryWord.Valid then showTopLoop rest shown
    else
      dictionaryWord.getWord ::
        (if shown + 1 = 10 then [] else showTopLoop rest (shown + 1))

/-- The function `showTopPossibilities`: the lines printed, and the
dictionary, which no statement of the function assigns to. -/
def showTopPossibilities (dictionaryWords : List DictionaryWord) :
    List String × List DictionaryWord :=
  (showTopLoop dictionaryWords 0, dictionaryWords)

/-! ## The command `b` (`main.go` lines 159-189) -/

/-- The constants of the package `go-color` that the board uses; their
values are not part of this repository. -/
structure Palette where
  Bold : String
  White : String
  GrayBackground : String
  YellowBackground : String
  GreenBackground : String
  Reset : String

/-- How the command `b` ends: with the lines it printed, or in the
`log.Fatalf` of the status switch, after the lines printed until then. -/
inductive BoardResult where
  | printed (lines : List String)
  | fatal (lines : List String) (status : Nat)
  deriving DecidableEq, Repr

/-- The loop over the positions of one guess (lines 173-186): the line built,
or the status that `log.Fatalf` reports. -/
def boardLineLoop (color : Palette) : List GuessPosition → String → Except Nat String
  | [], output => .ok output
  | guessPosition :: rest, output =>
    if guessPosition.Status = GuessPositionWrong then
      boardLineLoop color rest
        (output ++ color.GrayBackground ++ String.singleton guessPosition.Letter)
    else if guessPosition.Status = GuessPositionMisplaced then
      boardLineLoop color rest
        (output ++ color.YellowBackground ++ String.singleton guessPosition.Letter)
    else if guessPosition.Status = GuessPositionCorrect then
      boardLineLoop color rest
        (output ++ color.GreenBackground ++ String.singleton guessPosition.Letter)
    else .error guessPosition.Status

/-- The loop over the history (lines 166-189), with the lines printed so far. -/
def boardLoop (color : Palette) : List Guess → List String → BoardResult
  | [], lines => .printed lines
  | guess :: rest, lines =>
    if !guess.Valid then .printed lines
    else
      match boardLineLoop color guess.Positions (color.Bold ++ color.White) with
      | .error status => .fatal lines status
      | .ok output => boardLoop color rest (lines ++ [output ++ color.Reset])

/-- The command `b` of `main`. -/
def boardCommand (color : Palette) (state : State) : BoardResult :=
  if state.currentGuess = 0 then .printed ["No guesses logged yet"]
  else boardLoop color state.guesses []

/-! ## Start-up (`main.go` lines 45-57 and 92-142) -/

/-- The library function `strings.ToUpper`, over the library function
`unicode.ToUpper` taken as the parameter `upper`: every rune is mapped. -/
def ToUpper (upper : Char → Char) (s : String) : String :=
  String.mk (s.toList.map upper)

/-- The loop of `newDictionaryWord`, `for letterPosition, letter := range
word`, from the rune at byte offset `letterPosition` on. The store
`dw.Letters[letterPosition] = letter` is out of range, and the runtime
panics (`none`), when the offset is not below the length of the slice. -/
def newDictionaryWordLoop : Nat → List Char → List Char → Option (List Char)
  | _, [], letters => some letters
  | letterPosition, letter :: word, letters =>
    if letterPosition < letters.length then
      newDictionaryWordLoop (letterPosition + runeLen letter) word
        (letters.set letterPosition letter)
    else none

/-- The function `newDictionaryWord`. -/
def newDictionaryWord (word : String) : Option DictionaryWord :=
  match newDictionaryWordLoop 0 word.toList (List.replicate 5 (Char.ofNat 0)) with
  | none => none
  | some letters => some { Value := 0, Valid := true, Letters := letters }

/-- The first loop of `init` (lines 104-114) over the lines of the word
file, appending to `dictionaryWords`. -/
def loadLoop (upper : Char → Char) :
    List String → List DictionaryWord → Option (List DictionaryWord)
  | [], dictionaryWords => some dictionaryWords
  | word :: rest, dictionaryWords =>
    if byteLen word ≠ 5 then loadLoop upper rest dictionaryWords
    else
      match newDictionaryWord (ToUpper upper word) with
      | none => none
      | some dictionaryWord => loadLoop upper rest (dictionaryWords ++ [dictionaryWord])

/-- The second loop of `init` (lines 131-133) over the lines of
`answers.txt`. -/
def answersLoop : List String → List DictionaryWord → List DictionaryWord
  | [], dictionaryWords => dictionaryWords
  | line :: rest, dictionaryWords => answersLoop rest (scrubWord line dictionaryWords)

/-- The function `init` over the lines of the two files: the globals it
leaves, or `none` when `newDictionaryWord` panics. -/
def init (upper : Char → Char) (words answers : List String) : Option State :=
  match loadLoop upper words [] with
  | none => none
  | some dictionaryWords => some (initState (answersLoop answers dictionaryWords))

/-! ## The command `c` (`main.go` lines 190-206) -/

/-- The loop of the command `c` over the dictionary: the flag of the first
record that spells `word`, where the loop breaks; `valid`, the flag of the
guess, when no record does. -/
def checkLoop (word : String) : List DictionaryWord → Bool → Bool
  | [], valid => valid
  | dictionaryWord :: rest, valid =>
    if dictionaryWord.getWord = word then dictionaryWord.Valid
    else checkLoop word rest valid

/-- The command `c` of `main`: the guess that `promptGuess` returns, with the
flag that the loop leaves in it; the flag decides between the lines
`is a valid guess` and `is an invalid guess`. -/
def checkCommand (state : State) (input : List String) : Outcome :=
  match promptGuess false state input with
  | .returned guess state input =>
    .returned { guess with Valid := checkLoop guess.getWord state.dictionaryWords false }
      state input
  | outcome => outcome

/-! ## Notions used to state the properties -/

/-- The live set of a dictionary: the indices of the records whose flag is
set. A record is identified by its index in the slice. -/
def liveSet (dictionaryWords : List DictionaryWord) : Set Nat :=
  { i | ∃ dw, dictionaryWords[i]? = some dw ∧ dw.Valid = true }

/-- The dictionary in which a record keeps its flag only when its letters
pass the test `keep`; nothing else changes. Every scrub has this shape. -/
def restrict (keep : List Char → Bool) (dictionaryWords : List DictionaryWord) :
    List DictionaryWord :=
  dictionaryWords.map fun dw => { dw with Valid := dw.Valid && keep dw.Letters }

/-- The test that the scrub run when a status is entered for position `i`
applies to the letters of a live record. -/
def positionKeep (i : Nat) (p : GuessPosition) (ls : List Char) : Bool :=
  if p.Status = GuessPositionWrong ∨ p.Status = GuessPositionMisplaced then
    !decide (ls[i]? = some p.Letter)
  else if p.Status = GuessPositionCorrect then decide (ls[i]? = some p.Letter)
  else true

/-- The tests of the positions `ps`, entered for the indices `i`, `i + 1`, ... -/
def positionsKeep : Nat → List GuessPosition → List Char → Bool
  | _, [], _ => true
  | i, p :: ps, ls => positionKeep i p ls && positionsKeep (i + 1) ps ls

/-- The test of the calls of `scrubLetterMustBePresent` made while a guess is
classified: every misplaced letter occurs. -/
def misplacedKeep (ps : List GuessPosition) (ls : List Char) : Bool :=
  ps.all fun p => decide (p.Status = GuessPositionMisplaced → p.Letter ∈ ls)

/-- The positions `ps` stored at the indices `k`, `k + 1`, ... of `l`. -/
def writeFrom : Nat → List GuessPosition → List GuessPosition → List GuessPosition
  | _, [], l => l
  | k, p :: ps, l => writeFrom (k + 1) ps (l.set k p)

/-- Whether the letter `c` has the status `s` at some position of `ps`. -/
def hasStatus (ps : List GuessPosition) (c : Char) (s : Nat) : Bool :=
  ps.any fun p => decide (p.Letter = c ∧ p.Status = s)

/-- The indices, counted from `i`, at which `ps` marks the letter `c` Correct. -/
def correctIndices : Nat → List GuessPosition → Char → List Nat
  | _, [], _ => []
  | i, p :: ps, c =>
    if p.Status = GuessPositionCorrect ∧ p.Letter = c then i :: correctIndices (i + 1) ps c
    else correctIndices (i + 1) ps c

/-- The map `wrongLetters` as the complete-letter pass finds it: the letters
with a Wrong and no Misplaced position. -/
def wrongOf (ps : List GuessPosition) : Char → Option Bool := fun c =>
  if hasStatus ps c GuessPositionMisplaced then none
  else if hasStatus ps c GuessPositionWrong then some true
  else none

/-- The map `correctLetterPositions` as the complete-letter pass finds it:
the Correct indices of the letters with a Correct and no Misplaced position. -/
def correctOf (ps : List GuessPosition) : Char → Option (List Nat) := fun c =>
  if hasStatus ps c GuessPositionMisplaced then none
  else if correctIndices 0 ps c = [] then none
  else some (correctIndices 0 ps c)

/-- The test that an accepted real guess with the positions `ps` applies to
the letters of a live record: the per-position scrubs, the presence of the
misplaced letters, and the complete-letter loop. -/
def guessKeep (ps : List GuessPosition) (ls : List Char) : Bool :=
  positionsKeep 0 ps ls && (misplacedKeep ps ls &&
    completeLetterLoop (wrongOf ps) (correctOf ps) 0 ls true)

/-- The positions `ps` with every Wrong mark on the letter `L` replaced by
Misplaced. -/
def wrongToMisplaced (L : Char) (ps : List GuessPosition) : List GuessPosition :=
  ps.map fun p =>
    if p.Letter = L ∧ p.Status = GuessPositionWrong then
      { p with Status := GuessPositionMisplaced }
    else p

/-! ## Worked examples -/

/-- The zero-valued guess that `make([]Guess, 5)` puts in the history. -/
def zeroGuess : Guess := { Valid := false, Positions := [] }

/-- ARGUE with A Correct and R, G, U, E Wrong. -/
def argueGuess : Guess :=
  ⟨true, [⟨'A', 3⟩, ⟨'R', 1⟩, ⟨'G', 1⟩, ⟨'U', 1⟩, ⟨'E', 1⟩]⟩

def argueBefore : State :=
  initState [⟨0, true, "AMINO".toList⟩, ⟨0, true, "APPLE".toList⟩, ⟨0, true, "ANGRY".toList⟩,
    ⟨0, true, "BLAST".toList⟩, ⟨0, true, "ABBOT".toList⟩]

def argueAfter : State :=
  { dictionaryWords := [⟨0, true, "AMINO".toList⟩, ⟨0, false, "APPLE".toList⟩,
      ⟨0, false, "ANGRY".toList⟩, ⟨0, false, "BLAST".toList⟩, ⟨0, true, "ABBOT".toList⟩]
    currentGuess := 1
    guesses := [argueGuess, zeroGuess, zeroGuess, zeroGuess, zeroGuess] }

/-- SUSHI with the first S Wrong, the second S Misplaced, the rest Wrong. -/
def sushiGuess : Guess :=
  ⟨true, [⟨'S', 1⟩, ⟨'U', 1⟩, ⟨'S', 2⟩, ⟨'H', 1⟩, ⟨'I', 1⟩]⟩

/-- SUSHI with both S Misplaced, the rest Wrong. -/
def sushiGuessMisplaced : Guess :=
  ⟨true, [⟨'S', 2⟩, ⟨'U', 1⟩, ⟨'S', 2⟩, ⟨'H', 1⟩, ⟨'I', 1⟩]⟩

def sushiBefore : State :=
  initState [⟨0, true, "BLAST".toList⟩, ⟨0, true, "WORLD".toList⟩, ⟨0, true, "STOMP".toList⟩,
    ⟨0, true, "MASON".toList⟩]

/-- The dictionary after either SUSHI guess. -/
def sushiWords : List DictionaryWord :=
  [⟨0, true, "BLAST".toList⟩, ⟨0, false, "WORLD".toList⟩, ⟨0, false, "STOMP".toList⟩,
    ⟨0, false, "MASON".toList⟩]

/-- LLAMA with the first L Correct and L, A, M, A Wrong. -/
def llamaGuess : Guess :=
  ⟨true, [⟨'L', 3⟩, ⟨'L', 1⟩, ⟨'A', 1⟩, ⟨'M', 1⟩, ⟨'A', 1⟩]⟩

/-- BLANK with every letter Wrong. -/
def blankGuess : Guess :=
  ⟨true, [⟨'B', 1⟩, ⟨'L', 1⟩, ⟨'A', 1⟩, ⟨'N', 1⟩, ⟨'K', 1⟩]⟩

/-- The globals after `n` accepted guesses BLANK (all Wrong) over the live
words STUDY and MOIST, which contain none of its letters. -/
def afterBlank (n : Nat) : State :=
  { dictionaryWords := [⟨0, true, "STUDY".toList⟩, ⟨0, true, "MOIST".toList⟩]
    currentGuess := n
    guesses := List.replicate n blankGuess ++ List.replicate (5 - n) zeroGuess }

/-- An elementary scrub operation with its arguments. -/
inductive ScrubOp where
  | ofWord (word : String)
  | ofPositionWrong (position : Nat) (letter : Char)
  | ofPositionCorrect (position : Nat) (letter : Char)
  | ofLetterMustBePresent (letter : Char)

/-- The call of the scrub operation on the dictionary. -/
def ScrubOp.apply : ScrubOp → List DictionaryWord → List DictionaryWord
  | ScrubOp.ofWord word, ws => scrubWord word ws
  | ScrubOp.ofPositionWrong position letter, ws => scrubPositionWrong position letter ws
  | ScrubOp.ofPositionCorrect position letter, ws => scrubPositionCorrect position letter ws
  | ScrubOp.ofLetterMustBePresent letter, ws => scrubLetterMustBePresent letter ws

/-- The live words of a dictionary, in the order of the slice. -/
def liveWords (dictionaryWords : List DictionaryWord) : List String :=
  (dictionaryWords.filter fun dw => dw.Valid).map fun dw => dw.getWord

/-- The dictionary with which the inner `for` of a guess position ends. -/
def PositionResult.dictionaryWords : PositionResult → List DictionaryWord
  | .assigned _ dictionaryWords _ => dictionaryWords
  | .invalid _ dictionaryWords _ => dictionaryWords
  | .quit dictionaryWords => dictionaryWords
  | .starved dictionaryWords => dictionaryWords

/-- The dictionary with which the loop `guessLoop` ends. -/
def GuessLoopResult.dictionaryWords : GuessLoopResult → List DictionaryWord
  | .done _ dictionaryWords _ => dictionaryWords
  | .quit dictionaryWords => dictionaryWords
  | .starved dictionaryWords => dictionaryWords

/-- The globals with which a call of `promptGuess` ends. -/
def Outcome.state : Outcome → State
  | .returned _ state _ => state
  | .quit state => state
  | .panicked state => state
  | .starved state => state

/-- What the inner `for` of a guess position does to the guess `guess` and
the dictionary `ws`: a stored position comes with its scrub, every other end
leaves the dictionary alone. -/
def PositionResult.Meets (gp : Nat) (guess : Guess) (ws : List DictionaryWord) :
    PositionResult → Prop
  | .assigned g' ws' _ =>
    ∃ p : GuessPosition,
      g' = { guess with Positions := guess.Positions.set (gp % 256) p } ∧
      ws' = restrict (positionKeep (gp % 256) p) ws
  | .invalid g' ws' _ => g' = { guess with Valid := false } ∧ ws' = ws
  | .quit ws' => ws' = ws
  | .starved ws' => ws' = ws

/-- The globals after the guess ARGUE (A Correct, the rest Wrong) over ALPHA
alone: ALPHA is still live. -/
def alphaAfter : State :=
  { dictionaryWords := [⟨0, true, "ALPHA".toList⟩]
    currentGuess := 1
    guesses := [argueGuess, zeroGuess, zeroGuess, zeroGuess, zeroGuess] }

/-- The letter test of `promptGuess` (lines 283-286): `letterIsUpper ||
letterIsLower`. -/
def isLetter (letter : Char) : Bool :=
  (decide ('A'.toNat ≤ letter.toNat) && decide (letter.toNat ≤ 'Z'.toNat)) ||
    (decide ('a'.toNat ≤ letter.toNat) && decide (letter.toNat ≤ 'z'.toNat))

/-- The guess that the word CAN'T leaves when C, A, N are given the status
Correct: the apostrophe ends the loop and the guess is not valid. -/
def cantGuess : Guess :=
  ⟨false, [⟨'C', 3⟩, ⟨'A', 3⟩, ⟨'N', 3⟩, ⟨Char.ofNat 0, 0⟩, ⟨Char.ofNat 0, 0⟩]⟩

def cantBefore : State :=
  initState [⟨0, true, "CANDY".toList⟩, ⟨0, true, "BRAVE".toList⟩]

def cantAfter : State :=
  initState [⟨0, true, "CANDY".toList⟩, ⟨0, false, "BRAVE".toList⟩]

/-- CRANE with the status of C answered by `h` and the rest Wrong. -/
def craneHelpGuess : Guess :=
  ⟨true, [⟨'C', 0⟩, ⟨'R', 1⟩, ⟨'A', 1⟩, ⟨'N', 1⟩, ⟨'E', 1⟩]⟩

def craneHelpAfter : State :=
  { dictionaryWords := [⟨0, true, "MOIST".toList⟩]
    currentGuess := 1
    guesses := [craneHelpGuess, zeroGuess, zeroGuess, zeroGuess, zeroGuess] }

/-- The library function `unicode.ToUpper` on the code points up to U+00FF
(Basic Latin and Latin-1 Supplement). Beyond them it is left as the identity
here, which is not the value of the library for the cased letters there: it
serves to evaluate examples whose characters lie below U+0100, and the
general statements take the function as a parameter. -/
def unicodeToUpper (c : Char) : Char :=
  if 0x61 ≤ c.toNat ∧ c.toNat ≤ 0x7A then Char.ofNat (c.toNat - 32)
  else if c.toNat = 0xB5 then Char.ofNat 0x39C
  else if (0xE0 ≤ c.toNat ∧ c.toNat ≤ 0xFE) ∧ c.toNat ≠ 0xF7 then Char.ofNat (c.toNat - 32)
  else if c.toNat = 0xFF then Char.ofNat 0x178
  else c

/-- The upper-casing of the ASCII characters: a-z go to A-Z, the others stay. -/
def asciiUpper (c : Char) : Char :=
  if 0x61 ≤ c.toNat ∧ c.toNat ≤ 0x7A then Char.ofNat (c.toNat - 32) else c

/-- The function `upper` maps the ASCII characters as `unicode.ToUpper` does. -/
def UpperOnAscii (upper : Char → Char) : Prop :=
  ∀ c : Char, c.toNat < 128 → upper c = asciiUpper c

/-- Every character of the string is an ASCII character. -/
def IsAscii (s : String) : Prop :=
  ∀ c ∈ s.toList, c.toNat < 128

/-- The record that `newDictionaryWord` builds from an entry of five one-byte
characters, upper-cased. -/
def recordOf (upper : Char → Char) (word : String) : DictionaryWord :=
  { Value := 0, Valid := true, Letters := word.toList.map upper }

/-- The letter as `promptGuess` stores it (lines 294-296): a lower-case
letter is moved to upper case. -/
def upperLetter (letter : Char) : Char :=
  if (decide ('a'.toNat ≤ letter.toNat) && decide (letter.toNat ≤ 'z'.toNat)) = true then
    Char.ofNat (letter.toNat - 32)
  else letter

/-- The dictionaries that the program can hold: a freshly loaded one, whose
records are all live, and what the scrub operations, the finalization of a
guess and the calls of `promptGuess` make of such a dictionary. -/
inductive Reachable : List DictionaryWord → Prop where
  | fresh (ws : List DictionaryWord) (hlive : ∀ dw ∈ ws, dw.Valid = true) : Reachable ws
  | scrub (op : ScrubOp) {ws : List DictionaryWord} (h : Reachable ws) :
      Reachable (op.apply ws)
  | finalize (guess : Guess) {ws : List DictionaryWord} (h : Reachable ws) :
      Reachable (finalizeGuess guess ws)
  | prompt (realGuess : Bool) (state : State) (input : List String)
      (h : Reachable state.dictionaryWords) :
      Reachable (promptGuess realGuess state input).state.dictionaryWords

/-- A dictionary with the record WORLD twice, after `scrubWord("WORLD")`. -/
def worldScrubbed : State :=
  initState ((ScrubOp.ofWord "WORLD").apply
    [⟨0, true, "BLAST".toList⟩, ⟨0, true, "WORLD".toList⟩, ⟨0, true, "WORLD".toList⟩])

/-- The letters of the secret that the guess does not match in place, in
order: the occurrences that are left for Misplaced marks. -/
def unmatched : List Char → List Char → List Char
  | s :: secret, g :: guess =>
    if s = g then unmatched secret guess else s :: unmatched secret guess
  | _, _ => []

/-- The scoring of the puzzle from left to right, with the occurrences of
the secret that are still unmatched in `pool`: Correct where guess and secret
agree, otherwise Misplaced while an unmatched occurrence of the letter
remains (which is then used up), otherwise Wrong. -/
def scoreFrom : List Char → List Char → List Char → List GuessPosition
  | s :: secret, g :: guess, pool =>
    if s = g then ⟨g, GuessPositionCorrect⟩ :: scoreFrom secret guess pool
    else if g ∈ pool then ⟨g, GuessPositionMisplaced⟩ :: scoreFrom secret guess (pool.erase g)
    else ⟨g, GuessPositionWrong⟩ :: scoreFrom secret guess pool
  | _, _, _ => []

/-- The statuses that the puzzle gives the guess `guess` for the secret
`secret`. -/
def score (secret guess : List Char) : List GuessPosition :=
  scoreFrom secret guess (unmatched secret guess)

/-- EERIE scored against the secret CRANE: E Wrong, E Wrong, R Misplaced,
I Wrong, E Correct. -/
def eerieGuess : Guess :=
  ⟨true, [⟨'E', 1⟩, ⟨'E', 1⟩, ⟨'R', 2⟩, ⟨'I', 1⟩, ⟨'E', 3⟩]⟩

def eerieBefore : State :=
  initState [⟨0, true, "BRINE".toList⟩, ⟨0, true, "CRANE".toList⟩, ⟨0, true, "ERASE".toList⟩,
    ⟨0, true, "CRATE".toList⟩]

def eerieAfter : State :=
  { dictionaryWords := [⟨0, false, "BRINE".toList⟩, ⟨0, true, "CRANE".toList⟩,
      ⟨0, false, "ERASE".toList⟩, ⟨0, true, "CRATE".toList⟩]
    currentGuess := 1
    guesses := [eerieGuess, zeroGuess, zeroGuess, zeroGuess, zeroGuess] }

/-- A dictionary of fourteen records for the command `p`: ABOVE and AGREE are
not live, the other twelve are. -/
def topExample : List DictionaryWord :=
  [⟨0, true, "ABOUT".toList⟩, ⟨0, false, "ABOVE".toList⟩, ⟨0, true, "ACTOR".toList⟩,
   ⟨0, true, "ADULT".toList⟩, ⟨0, true, "AFTER".toList⟩, ⟨0, true, "AGAIN".toList⟩,
   ⟨0, true, "AGENT".toList⟩, ⟨0, false, "AGREE".toList⟩, ⟨0, true, "AHEAD".toList⟩,
   ⟨0, true, "ALARM".toList⟩, ⟨0, true, "ALBUM".toList⟩, ⟨0, true, "ALERT".toList⟩,
   ⟨0, true, "ALIKE".toList⟩, ⟨0, true, "ALIVE".toList⟩]

/-! ## Basic facts -/

theorem foldl_append_singleton (letters : List Char) (acc : String) :
    letters.foldl (fun str letter => str ++ String.singleton letter) acc
      = acc ++ String.mk letters := by
  induction letters generalizing acc with
  | nil => apply String.ext; simp
  | cons c cs ih =>
    rw [List.foldl_cons, ih]
    apply String.ext
    simp [String.singleton]

theorem getWord_eq (dw : DictionaryWord) : dw.getWord = String.mk dw.Letters := by
  unfold DictionaryWord.getWord
  rw [foldl_append_singleton]
  rfl

theorem restrict_length (keep : List Char → Bool) (ws : List DictionaryWord) :
    (restrict keep ws).length = ws.length := by
  simp [restrict]

theorem restrict_getElem? (keep : List Char → Bool) (ws : List DictionaryWord) (i : Nat) :
    (restrict keep ws)[i]?
      = (ws[i]?).map fun dw => { dw with Valid := dw.Valid && keep dw.Letters } := by
  simp [restrict]

theorem restrict_restrict (keep₁ keep₂ : List Char → Bool) (ws : List DictionaryWord) :
    restrict keep₂ (restrict keep₁ ws) = restrict (fun ls => keep₁ ls && keep₂ ls) ws := by
  simp [restrict, Bool.and_assoc]

theorem restrict_true (ws : List DictionaryWord) : restrict (fun _ => true) ws = ws := by
  simp [restrict]

theorem restrict_congr {keep₁ keep₂ : List Char → Bool} (ws : List DictionaryWord)
    (h : ∀ dw ∈ ws, dw.Valid = true → keep₁ dw.Letters = keep₂ dw.Letters) :
    restrict keep₁ ws = restrict keep₂ ws := by
  unfold restrict
  apply List.map_congr_left
  intro dw hdw
  cases hv : dw.Valid with
  | false => simp
  | true => simp [h dw hdw hv]

theorem liveSet_restrict (keep : List Char → Bool) (ws : List DictionaryWord) :
    liveSet (restrict keep ws) ⊆ liveSet ws := by
  intro i hi
  obtain ⟨dw', hget, hvalid⟩ := hi
  rw [restrict_getElem?] at hget
  cases hws : ws[i]? with
  | none => simp [hws] at hget
  | some dw =>
    rw [hws] at hget
    simp only [Option.map_some', Option.some.injEq] at hget
    subst hget
    simp only [Bool.and_eq_true] at hvalid
    exact ⟨dw, hws, hvalid.1⟩

theorem scrubWord_eq_restrict (word : String) (ws : List DictionaryWord) :
    scrubWord word ws = restrict (fun ls => !decide (String.mk ls = word)) ws := by
  unfold scrubWord restrict
  apply List.map_congr_left
  intro dw _
  rw [getWord_eq]
  by_cases h : String.mk dw.Letters = word <;> simp [h]

theorem scrubPositionWrong_eq_restrict (position : Nat) (letter : Char)
    (ws : List DictionaryWord) :
    scrubPositionWrong position letter ws
      = restrict (fun ls => !decide (ls[position]? = some letter)) ws := by
  unfold scrubPositionWrong restrict
  apply List.map_congr_left
  intro dw _
  obtain ⟨value, valid, letters⟩ := dw
  cases valid <;> by_cases h : letters[position]? = some letter <;> simp [h]

theorem scrubPositionCorrect_eq_restrict (position : Nat) (letter : Char)
    (ws : List DictionaryWord) :
    scrubPositionCorrect position letter ws
      = restrict (fun ls => decide (ls[position]? = some letter)) ws := by
  unfold scrubPositionCorrect restrict
  apply List.map_congr_left
  intro dw _
  obtain ⟨value, valid, letters⟩ := dw
  cases valid <;> by_cases h : letters[position]? = some letter <;> simp [h]

theorem letterPresentLoop_false (letter : Char) (ls : List Char) :
    letterPresentLoop letter ls false = decide (letter ∈ ls) := by
  induction ls with
  | nil => simp [letterPresentLoop]
  | cons c cs ih =>
    unfold letterPresentLoop
    by_cases h : c = letter
    · simp [h]
    · have h' : ¬ letter = c := fun e => h e.symm
      simp [h, h', ih]

theorem scrubLetterMustBePresent_eq_restrict (letter : Char) (ws : List DictionaryWord) :
    scrubLetterMustBePresent letter ws = restrict (fun ls => decide (letter ∈ ls)) ws := by
  unfold scrubLetterMustBePresent restrict
  apply List.map_congr_left
  intro dw _
  obtain ⟨value, valid, letters⟩ := dw
  cases valid <;> simp [letterPresentLoop_false]

theorem completeLetterPass_eq_restrict (wrongLetters : Char → Option Bool)
    (correctLetterPositions : Char → Option (List Nat)) (ws : List DictionaryWord) :
    completeLetterPass wrongLetters correctLetterPositions ws
      = restrict (fun ls => completeLetterLoop wrongLetters correctLetterPositions 0 ls true)
          ws := by
  unfold completeLetterPass restrict
  apply List.map_congr_left
  intro dw _
  obtain ⟨value, valid, letters⟩ := dw
  cases valid <;> simp

/-! ## The guess prompt: what an accepted guess does -/

theorem positionKeep_unknown (i : Nat) (c : Char) :
    positionKeep i ⟨c, GuessPositionUnknown⟩ = fun _ => true := by
  funext ls; simp [positionKeep, GuessPositionUnknown, GuessPositionWrong,
    GuessPositionMisplaced, GuessPositionCorrect]

theorem positionKeep_wrong (i : Nat) (c : Char) :
    positionKeep i ⟨c, GuessPositionWrong⟩ = fun ls => !decide (ls[i]? = some c) := by
  funext ls; simp [positionKeep, GuessPositionWrong]

theorem positionKeep_misplaced (i : Nat) (c : Char) :
    positionKeep i ⟨c, GuessPositionMisplaced⟩ = fun ls => !decide (ls[i]? = some c) := by
  funext ls; simp [positionKeep, GuessPositionMisplaced]

theorem positionKeep_correct (i : Nat) (c : Char) :
    positionKeep i ⟨c, GuessPositionCorrect⟩ = fun ls => decide (ls[i]? = some c) := by
  funext ls; simp [positionKeep, GuessPositionWrong,
    GuessPositionMisplaced, GuessPositionCorrect]

theorem positionLoop_assigned (gp : Nat) (guess : Guess) (input : List String) :
    ∀ (letter : Char) (ws : List DictionaryWord) (g' : Guess) (ws' : List DictionaryWord)
      (rest : List String),
      positionLoop true gp guess letter ws input = .assigned g' ws' rest →
      runeLen letter = 1 ∧ ∃ p : GuessPosition,
        g' = { guess with Positions := guess.Positions.set (gp % 256) p } ∧
        ws' = restrict (positionKeep (gp % 256) p) ws := by
  induction input with
  | nil =>
    intro letter ws g' ws' rest h
    unfold positionLoop at h
    simp at h
    split at h <;> simp at h
  | cons status input ih =>
    intro letter ws g' ws' rest h
    unfold positionLoop at h
    simp only [] at h
    split at h
    · simp at h
    · rename_i hletter
      have hlen : runeLen letter = 1 := by
        simp at hletter
        unfold runeLen
        have : letter.toNat < 128 := by omega
        simp [this]
      refine ⟨hlen, ?_⟩
      simp only [if_true] at h
      split at h
      · simp only [PositionResult.assigned.injEq] at h
        obtain ⟨h1, h2, _⟩ := h
        exact ⟨_, h1.symm, by rw [← h2, positionKeep_unknown, restrict_true]⟩
      split at h
      · simp only [PositionResult.assigned.injEq] at h
        obtain ⟨h1, h2, _⟩ := h
        exact ⟨_, h1.symm, by rw [← h2, positionKeep_wrong, scrubPositionWrong_eq_restrict]⟩
      split at h
      · simp only [PositionResult.assigned.injEq] at h
        obtain ⟨h1, h2, _⟩ := h
        exact ⟨_, h1.symm, by rw [← h2, positionKeep_misplaced, scrubPositionWrong_eq_restrict]⟩
      split at h
      · simp only [PositionResult.assigned.injEq] at h
        obtain ⟨h1, h2, _⟩ := h
        exact ⟨_, h1.symm, by rw [← h2, positionKeep_correct, scrubPositionCorrect_eq_restrict]⟩
      split at h
      · simp at h
      · exact (ih _ ws g' ws' rest h).2

theorem positionLoop_invalid (realGuess : Bool) (gp : Nat) (guess : Guess) (input : List String) :
    ∀ (letter : Char) (ws : List DictionaryWord) (g' : Guess) (ws' : List DictionaryWord)
      (rest : List String),
      positionLoop realGuess gp guess letter ws input = .invalid g' ws' rest →
      g'.Valid = false := by
  induction input with
  | nil =>
    intro letter ws g' ws' rest h
    unfold positionLoop at h
    simp only [] at h
    split at h
    · simp only [PositionResult.invalid.injEq] at h
      rw [← h.1]
    · split at h <;> simp at h
  | cons status input ih =>
    intro letter ws g' ws' rest h
    unfold positionLoop at h
    simp only [] at h
    split at h
    · simp only [PositionResult.invalid.injEq] at h
      rw [← h.1]
    · split at h
      · repeat' split at h
        all_goals first | exact ih _ ws g' ws' rest h | simp at h
      · simp at h

theorem guessLoop_done (cs : List Char) :
    ∀ (k : Nat) (guess : Guess) (ws : List DictionaryWord) (input : List String) (g' : Guess)
      (ws' : List DictionaryWord) (rest : List String),
      guessLoop true k cs guess ws input = .done g' ws' rest → g'.Valid = true →
      k + cs.length ≤ 256 →
      (∀ c ∈ cs, runeLen c = 1) ∧ ∃ ps : List GuessPosition, ps.length = cs.length ∧
        g' = { guess with Positions := writeFrom k ps guess.Positions } ∧
        ws' = restrict (positionsKeep k ps) ws := by
  induction cs with
  | nil =>
    intro k guess ws input g' ws' rest h _ _
    simp only [guessLoop, GuessLoopResult.done.injEq] at h
    refine ⟨by simp, [], rfl, ?_, ?_⟩
    · rw [← h.1]; rfl
    · rw [← h.2.1]
      exact (restrict_true ws).symm
  | cons c cs ih =>
    intro k guess ws input g' ws' rest h hvalid hk
    simp only [List.length_cons] at hk
    unfold guessLoop at h
    split at h
    · rename_i g1 ws1 in1 hpos
      obtain ⟨hlen, p, hg1, hws1⟩ := positionLoop_assigned k guess input c ws g1 ws1 in1 hpos
      rw [hlen] at h
      obtain ⟨hall, ps, hps, hg', hws'⟩ := ih (k + 1) g1 ws1 in1 g' ws' rest h hvalid (by omega)
      have hmod : k % 256 = k := Nat.mod_eq_of_lt (by omega)
      rw [hmod] at hg1 hws1
      refine ⟨?_, p :: ps, by simp [hps], ?_, ?_⟩
      · intro x hx
        rcases List.mem_cons.1 hx with rfl | hx
        · exact hlen
        · exact hall x hx
      · rw [hg', hg1]; rfl
      · rw [hws', hws1, restrict_restrict]; rfl
    · rename_i g1 ws1 in1 hpos
      simp only [GuessLoopResult.done.injEq] at h
      have := positionLoop_invalid true k guess input c ws g1 ws1 in1 hpos
      rw [h.1] at this
      rw [this] at hvalid
      cases hvalid
    · simp at h
    · simp at h

theorem length_le_sum_runeLen (cs : List Char) : cs.length ≤ (cs.map runeLen).sum := by
  induction cs with
  | nil => simp
  | cons c cs ih =>
    have : 1 ≤ runeLen c := by unfold runeLen; split <;> [skip; split <;> [skip; split]] <;> omega
    simp only [List.length_cons, List.map_cons, List.sum_cons]
    omega

theorem sum_runeLen_eq_length (cs : List Char) (h : ∀ c ∈ cs, runeLen c = 1) :
    (cs.map runeLen).sum = cs.length := by
  induction cs with
  | nil => simp
  | cons c cs ih =>
    simp only [List.length_cons, List.map_cons, List.sum_cons]
    rw [ih (fun x hx => h x (List.mem_cons_of_mem _ hx)), h c (List.mem_cons_self _ _)]
    omega

theorem writeFrom_zero_five (ps l : List GuessPosition) (hps : ps.length = 5)
    (hl : l.length = 5) : writeFrom 0 ps l = ps := by
  match ps, hps with
  | [a, b, c, d, e], _ =>
    match l, hl with
    | [a', b', c', d', e'], _ => rfl

theorem hasStatus_cons (p : GuessPosition) (ps : List GuessPosition) (c : Char) (s : Nat) :
    hasStatus (p :: ps) c s = (decide (p.Letter = c ∧ p.Status = s) || hasStatus ps c s) := by
  simp [hasStatus]

theorem hasStatus_iff (ps : List GuessPosition) (c : Char) (s : Nat) :
    hasStatus ps c s = true ↔ ∃ p ∈ ps, p.Letter = c ∧ p.Status = s := by
  simp [hasStatus]

theorem classifyLoop_wrongLetters (ps : List GuessPosition) :
    ∀ (i : Nat) (k : Classification) (c : Char),
      (classifyLoop i ps k).wrongLetters c
        = if hasStatus ps c GuessPositionWrong then some true else k.wrongLetters c := by
  induction ps with
  | nil => intro i k c; simp [classifyLoop, hasStatus]
  | cons p ps ih =>
    intro i k c
    rw [classifyLoop, ih, hasStatus_cons]
    by_cases hs : hasStatus ps c GuessPositionWrong = true
    · simp [hs]
    · simp only [hs, Bool.or_false, if_false, Bool.false_eq_true]
      simp only [classifyPosition, GuessPositionWrong, GuessPositionMisplaced,
        GuessPositionCorrect]
      by_cases h1 : p.Status = 1
      · by_cases h2 : p.Letter = c
        · simp [h1, h2]
        · have h2' : ¬ c = p.Letter := fun e => h2 e.symm
          simp [h1, h2, h2', Function.update]
      · simp only [h1, if_false, and_false, decide_False, Bool.false_eq_true]
        split <;> [rfl; split <;> rfl]

theorem classifyLoop_misplacedLetters (ps : List GuessPosition) :
    ∀ (i : Nat) (k : Classification) (c : Char),
      c ∈ (classifyLoop i ps k).misplacedLetters
        ↔ hasStatus ps c GuessPositionMisplaced = true ∨ c ∈ k.misplacedLetters := by
  induction ps with
  | nil => intro i k c; simp [classifyLoop, hasStatus]
  | cons p ps ih =>
    intro i k c
    rw [classifyLoop, ih, hasStatus_cons]
    simp only [classifyPosition, GuessPositionWrong, GuessPositionMisplaced,
      GuessPositionCorrect]
    by_cases h1 : p.Status = 1
    · simp [h1]
    · by_cases h2 : p.Status = 2
      · simp only [h2, if_true, if_false, List.mem_cons, and_true, Bool.or_eq_true,
          decide_eq_true_eq, OfNat.ofNat_ne_one]
        constructor
        · rintro (h | h | h)
          · exact Or.inl (Or.inr h)
          · exact Or.inl (Or.inl h.symm)
          · exact Or.inr h
        · rintro ((h | h) | h)
          · exact Or.inr (Or.inl h.symm)
          · exact Or.inl h
          · exact Or.inr (Or.inr h)
      · simp only [h1, h2, if_false, and_false, decide_False, Bool.false_or]
        split <;> rfl

theorem classifyLoop_correctLetterPositions (ps : List GuessPosition) :
    ∀ (i : Nat) (k : Classification) (c : Char),
      (classifyLoop i ps k).correctLetterPositions c
        = if correctIndices i ps c = [] then k.correctLetterPositions c
          else some ((k.correctLetterPositions c).getD [] ++ correctIndices i ps c) := by
  induction ps with
  | nil => intro i k c; simp [classifyLoop, correctIndices]
  | cons p ps ih =>
    intro i k c
    rw [classifyLoop, ih]
    simp only [classifyPosition, correctIndices, GuessPositionWrong, GuessPositionMisplaced,
      GuessPositionCorrect]
    by_cases h1 : p.Status = 1
    · simp [h1]
    · by_cases h2 : p.Status = 2
      · simp [h2]
      · by_cases h3 : p.Status = 3
        · by_cases h4 : p.Letter = c
          · subst h4
            simp only [h3, if_true, if_false, and_self, Function.update_same,
              Option.getD_some, List.append_assoc, List.singleton_append]
            split <;> simp_all
          · have h4' : ¬ c = p.Letter := fun e => h4 e.symm
            simp [h3, h4, h4', Function.update]
        · simp [h1, h2, h3]

theorem misplacedKeep_cons (p : GuessPosition) (ps : List GuessPosition) (ls : List Char) :
    misplacedKeep (p :: ps) ls
      = (decide (p.Status = GuessPositionMisplaced → p.Letter ∈ ls) && misplacedKeep ps ls) := by
  simp [misplacedKeep]

theorem classifyLoop_dictionaryWords (ps : List GuessPosition) :
    ∀ (i : Nat) (k : Classification),
      (classifyLoop i ps k).dictionaryWords = restrict (misplacedKeep ps) k.dictionaryWords := by
  induction ps with
  | nil =>
    intro i k
    simp only [classifyLoop]
    exact (restrict_true _).symm
  | cons p ps ih =>
    intro i k
    rw [classifyLoop, ih]
    have hfun : misplacedKeep (p :: ps) = fun ls =>
        (decide (p.Status = GuessPositionMisplaced → p.Letter ∈ ls) && misplacedKeep ps ls) :=
      funext (misplacedKeep_cons p ps)
    rw [hfun]
    simp only [classifyPosition, GuessPositionWrong, GuessPositionMisplaced,
      GuessPositionCorrect]
    by_cases h1 : p.Status = 1
    · simp [h1]
    · by_cases h2 : p.Status = 2
      · simp only [h2, if_true, if_false, OfNat.ofNat_ne_one, forall_const]
        rw [scrubLetterMustBePresent_eq_restrict, restrict_restrict]
      · by_cases h3 : p.Status = 3 <;> simp [h1, h2, h3]

theorem deleteMisplaced_spec (ms : List Char) :
    ∀ (k : Classification),
      (deleteMisplaced ms k).dictionaryWords = k.dictionaryWords ∧
      (∀ c, (deleteMisplaced ms k).wrongLetters c = if c ∈ ms then none else k.wrongLetters c) ∧
      (∀ c, (deleteMisplaced ms k).correctLetterPositions c
        = if c ∈ ms then none else k.correctLetterPositions c) := by
  induction ms with
  | nil => intro k; simp [deleteMisplaced]
  | cons m ms ih =>
    intro k
    rw [deleteMisplaced]
    obtain ⟨h1, h2, h3⟩ := ih { k with
        wrongLetters := Function.update k.wrongLetters m none
        correctLetterPositions := Function.update k.correctLetterPositions m none }
    refine ⟨h1, ?_, ?_⟩
    · intro c
      rw [h2]
      by_cases hc : c ∈ ms
      · simp [hc]
      · by_cases hm : c = m
        · subst hm
          simp
        · simp [hc, hm, Function.update]
    · intro c
      rw [h3]
      by_cases hc : c ∈ ms
      · simp [hc]
      · by_cases hm : c = m
        · subst hm
          simp
        · simp [hc, hm, Function.update]

theorem classified_eq_restrict (ps : List GuessPosition) (k0 : Classification)
    (hk0w : k0.wrongLetters = fun _ => none)
    (hk0c : k0.correctLetterPositions = fun _ => none)
    (hk0m : k0.misplacedLetters = []) :
    completeLetterPass
        (deleteMisplaced (classifyLoop 0 ps k0).misplacedLetters
          (classifyLoop 0 ps k0)).wrongLetters
        (deleteMisplaced (classifyLoop 0 ps k0).misplacedLetters
          (classifyLoop 0 ps k0)).correctLetterPositions
        (deleteMisplaced (classifyLoop 0 ps k0).misplacedLetters
          (classifyLoop 0 ps k0)).dictionaryWords
      = restrict (fun ls => misplacedKeep ps ls &&
          completeLetterLoop (wrongOf ps) (correctOf ps) 0 ls true) k0.dictionaryWords := by
  obtain ⟨hd, hw, hc⟩ := deleteMisplaced_spec (classifyLoop 0 ps k0).misplacedLetters
    (classifyLoop 0 ps k0)
  have hmem : ∀ c, c ∈ (classifyLoop 0 ps k0).misplacedLetters
      ↔ hasStatus ps c GuessPositionMisplaced = true := by
    intro c
    rw [classifyLoop_misplacedLetters, hk0m]
    simp
  have hwrong : (deleteMisplaced (classifyLoop 0 ps k0).misplacedLetters
      (classifyLoop 0 ps k0)).wrongLetters = wrongOf ps := by
    funext c
    rw [hw, classifyLoop_wrongLetters, hk0w]
    unfold wrongOf
    by_cases hm : hasStatus ps c GuessPositionMisplaced = true
    · simp [(hmem c).2 hm, hm]
    · have : c ∉ (classifyLoop 0 ps k0).misplacedLetters := fun h => hm ((hmem c).1 h)
      simp [this, hm]
  have hcorrect : (deleteMisplaced (classifyLoop 0 ps k0).misplacedLetters
      (classifyLoop 0 ps k0)).correctLetterPositions = correctOf ps := by
    funext c
    rw [hc, classifyLoop_correctLetterPositions, hk0c]
    unfold correctOf
    by_cases hm : hasStatus ps c GuessPositionMisplaced = true
    · simp [(hmem c).2 hm, hm]
    · have : c ∉ (classifyLoop 0 ps k0).misplacedLetters := fun h => hm ((hmem c).1 h)
      simp [this, hm]
  rw [hwrong, hcorrect, hd, classifyLoop_dictionaryWords, completeLetterPass_eq_restrict,
    restrict_restrict]

theorem finalizeGuess_eq_restrict (guess : Guess) (ws : List DictionaryWord) :
    finalizeGuess guess ws
      = restrict (fun ls => misplacedKeep guess.Positions ls &&
          completeLetterLoop (wrongOf guess.Positions) (correctOf guess.Positions) 0 ls true)
          ws :=
  classified_eq_restrict guess.Positions ⟨fun _ => none, fun _ => none, [], ws⟩ rfl rfl rfl

/-- What an accepted real guess does to the globals: the round is below the
capacity of the history, the guess has five positions and is stored in the
history, and the dictionary is restricted by the test of the guess. -/
theorem promptGuess_accepted (input : List String) :
    ∀ (state : State) (guess : Guess) (state' : State) (rest : List String),
      promptGuess true state input = .returned guess state' rest → guess.Valid = true →
      state.currentGuess < state.guesses.length ∧ guess.Positions.length = 5 ∧
      state'.dictionaryWords = restrict (guessKeep guess.Positions) state.dictionaryWords ∧
      state'.currentGuess = (state.currentGuess + 1) % 256 ∧
      state'.guesses = state.guesses.set state.currentGuess guess := by
  induction input with
  | nil => intro state guess state' rest h; simp [promptGuess] at h
  | cons word input ih =>
    intro state guess state' rest h hvalid
    unfold promptGuess at h
    split at h
    · simp at h
    split at h
    · exact ih state guess state' rest h hvalid
    split at h
    · exact ih state guess state' rest h hvalid
    rename_i hlen
    simp only [ne_eq, Decidable.not_not] at hlen
    split at h
    · simp at h
    · simp at h
    · rename_i g ws in1 hloop
      have hg : g.Valid = true → (∃ ps : List GuessPosition, ps.length = 5 ∧ g.Positions = ps ∧
          ws = restrict (positionsKeep 0 ps) state.dictionaryWords) := by
        intro hv
        have hle := length_le_sum_runeLen word.toList
        unfold byteLen at hlen
        obtain ⟨hall, ps, hps, hg', hws'⟩ := guessLoop_done word.toList 0 _ _ _ g ws in1 hloop hv
          (by omega)
        have h5 : word.toList.length = 5 := by
          rw [← sum_runeLen_eq_length _ hall]; exact hlen
        rw [h5] at hps
        refine ⟨ps, hps, ?_, hws'⟩
        rw [hg']
        exact writeFrom_zero_five ps _ hps (by simp [newGuess])
      split at h
      · rename_i hcond
        simp only [Outcome.returned.injEq] at h
        rw [← h.1] at hvalid
        simp [hvalid] at hcond
      · rename_i hcond
        split at h
        · rename_i hlt
          simp only [Outcome.returned.injEq] at h
          obtain ⟨h1, h2, _⟩ := h
          subst h1
          obtain ⟨ps, hps, hpos, hws⟩ := hg hvalid
          subst hpos
          refine ⟨hlt, hps, ?_, ?_, ?_⟩
          · rw [← h2]
            simp only []
            rw [finalizeGuess_eq_restrict, hws, restrict_restrict]
            rfl
          · rw [← h2]
          · rw [← h2]
        · simp at h

theorem mem_restrict_valid {keep : List Char → Bool} {ws : List DictionaryWord}
    {dw : DictionaryWord} (hmem : dw ∈ restrict keep ws) (hvalid : dw.Valid = true) :
    keep dw.Letters = true := by
  unfold restrict at hmem
  obtain ⟨dw0, _, rfl⟩ := List.mem_map.1 hmem
  simp only [Bool.and_eq_true] at hvalid
  exact hvalid.2

theorem positionsKeep_iff (ps : List GuessPosition) (ls : List Char) :
    ∀ i, positionsKeep i ps ls = true
      ↔ ∀ k p, ps[k]? = some p → positionKeep (i + k) p ls = true := by
  induction ps with
  | nil => intro i; simp [positionsKeep]
  | cons q qs ih =>
    intro i
    simp only [positionsKeep, Bool.and_eq_true, ih]
    constructor
    · rintro ⟨h0, h1⟩ k p hk
      cases k with
      | zero =>
        simp only [List.getElem?_cons_zero, Option.some.injEq] at hk
        subst hk
        exact h0
      | succ k =>
        simp only [List.getElem?_cons_succ] at hk
        have := h1 k p hk
        rwa [show i + 1 + k = i + (k + 1) by omega] at this
    · intro h
      refine ⟨h 0 q (by simp), ?_⟩
      intro k p hk
      have := h (k + 1) p (by simpa using hk)
      rwa [show i + (k + 1) = i + 1 + k by omega] at this

theorem misplacedKeep_iff (ps : List GuessPosition) (ls : List Char) :
    misplacedKeep ps ls = true
      ↔ ∀ p ∈ ps, p.Status = GuessPositionMisplaced → p.Letter ∈ ls := by
  simp only [misplacedKeep, List.all_eq_true, decide_eq_true_eq]

theorem correctIndices_eq_nil (ps : List GuessPosition) (c : Char) :
    ∀ i, correctIndices i ps c = []
      ↔ ∀ p ∈ ps, ¬ (p.Status = GuessPositionCorrect ∧ p.Letter = c) := by
  induction ps with
  | nil => intro i; simp [correctIndices]
  | cons q qs ih =>
    intro i
    simp only [correctIndices, List.mem_cons, forall_eq_or_imp]
    by_cases h : q.Status = GuessPositionCorrect ∧ q.Letter = c
    · simp [h]
    · simp only [h, if_false, not_false_eq_true, true_and]
      exact ih (i + 1)

theorem completeLetterLoop_disjoint (wrongLetters : Char → Option Bool)
    (correctLetterPositions : Char → Option (List Nat))
    (h : ∀ x, (wrongLetters x).isSome = true → correctLetterPositions x = none)
    (ls : List Char) :
    ∀ j, completeLetterLoop wrongLetters correctLetterPositions j ls true = true
      ↔ ∀ l ∈ ls, (wrongLetters l).isSome = false := by
  induction ls with
  | nil => intro j; simp [completeLetterLoop]
  | cons c cs ih =>
    intro j
    simp only [completeLetterLoop, List.mem_cons, forall_eq_or_imp]
    by_cases hw : (wrongLetters c).isSome = true
    · simp [hw, h c hw]
    · simp only [Bool.not_eq_true] at hw
      simp [hw, ih (j + 1)]

theorem wrongOf_isSome (ps : List GuessPosition) (c : Char) :
    (wrongOf ps c).isSome = true
      ↔ hasStatus ps c GuessPositionWrong = true ∧
        hasStatus ps c GuessPositionMisplaced = false := by
  unfold wrongOf
  cases hasStatus ps c GuessPositionMisplaced <;> cases hasStatus ps c GuessPositionWrong <;> simp

theorem guessKeep_of_no_misplaced (ps : List GuessPosition) (ls : List Char)
    (hnoMisplaced : ∀ p ∈ ps, p.Status ≠ GuessPositionMisplaced)
    (hnoBoth : ∀ p ∈ ps, ∀ q ∈ ps, p.Status = GuessPositionWrong →
      q.Status = GuessPositionCorrect → p.Letter ≠ q.Letter) :
    guessKeep ps ls = true ↔
      (∀ (k : Nat) (p : GuessPosition), ps[k]? = some p → p.Status = GuessPositionCorrect →
        ls[k]? = some p.Letter) ∧
      (∀ p ∈ ps, p.Status = GuessPositionWrong → p.Letter ∉ ls) := by
  have hM : ∀ c, hasStatus ps c GuessPositionMisplaced = false := by
    intro c
    rw [Bool.eq_false_iff]
    intro h
    obtain ⟨p, hp, _, hs⟩ := (hasStatus_iff ps c _).1 h
    exact hnoMisplaced p hp hs
  have hdisj : ∀ x, (wrongOf ps x).isSome = true → correctOf ps x = none := by
    intro x hx
    obtain ⟨hw, _⟩ := (wrongOf_isSome ps x).1 hx
    obtain ⟨p, hp, hpl, hps⟩ := (hasStatus_iff ps x _).1 hw
    have hnil : correctIndices 0 ps x = [] := by
      rw [correctIndices_eq_nil]
      rintro q hq ⟨hqs, hql⟩
      exact hnoBoth p hp q hq hps hqs (hpl.trans hql.symm)
    simp [correctOf, hnil]
  have hmis : misplacedKeep ps ls = true :=
    (misplacedKeep_iff ps ls).2 (fun p hp hs => absurd hs (hnoMisplaced p hp))
  simp only [guessKeep, Bool.and_eq_true, hmis, true_and, positionsKeep_iff,
    completeLetterLoop_disjoint _ _ hdisj, Nat.zero_add]
  have hwrong : (∀ l ∈ ls, (wrongOf ps l).isSome = false)
      ↔ ∀ p ∈ ps, p.Status = GuessPositionWrong → p.Letter ∉ ls := by
    constructor
    · intro h p hp hs hmem
      have h1 := h p.Letter hmem
      rw [Bool.eq_false_iff] at h1
      exact h1 ((wrongOf_isSome ps _).2 ⟨(hasStatus_iff ps _ _).2 ⟨p, hp, rfl, hs⟩, hM _⟩)
    · intro h l hl
      rw [Bool.eq_false_iff]
      intro hsome
      obtain ⟨hw, _⟩ := (wrongOf_isSome ps l).1 hsome
      obtain ⟨p, hp, hpl, hps⟩ := (hasStatus_iff ps l _).1 hw
      exact h p hp hps (hpl ▸ hl)
  rw [hwrong]
  constructor
  · rintro ⟨hpos, hw⟩
    refine ⟨?_, hw⟩
    intro k p hk hs
    have := hpos k p hk
    obtain ⟨l, s⟩ := p
    simp only at hs
    subst hs
    rw [positionKeep_correct] at this
    simpa using this
  · rintro ⟨hc, hw⟩
    refine ⟨?_, hw⟩
    intro k p hk
    have hp : p ∈ ps := List.getElem?_mem hk
    unfold positionKeep
    by_cases h1 : p.Status = GuessPositionWrong
    · have hnot := hw p hp h1
      have : ls[k]? ≠ some p.Letter := fun e => hnot (List.getElem?_mem e)
      simp [h1, this]
    · have h2 := hnoMisplaced p hp
      by_cases h3 : p.Status = GuessPositionCorrect
      · have hc' := hc k p hk h3
        rw [if_neg (not_or.2 ⟨h1, h2⟩), if_pos h3]
        simp [hc']
      · simp [h1, h2, h3]

theorem positionsKeep_wrongToMisplaced (L : Char) (ps : List GuessPosition) (ls : List Char) :
    ∀ i, positionsKeep i (wrongToMisplaced L ps) ls = positionsKeep i ps ls := by
  induction ps with
  | nil => intro i; rfl
  | cons p ps ih =>
    intro i
    have ih' := ih (i + 1)
    unfold wrongToMisplaced at ih' ⊢
    simp only [List.map_cons, positionsKeep, ih']
    congr 1
    by_cases h : p.Letter = L ∧ p.Status = GuessPositionWrong
    · rw [if_pos h]
      obtain ⟨l, s⟩ := p
      simp only at h
      obtain ⟨_, rfl⟩ := h
      rw [positionKeep_misplaced, positionKeep_wrong]
    · rw [if_neg h]

theorem correctIndices_wrongToMisplaced (L : Char) (ps : List GuessPosition) (c : Char) :
    ∀ i, correctIndices i (wrongToMisplaced L ps) c = correctIndices i ps c := by
  induction ps with
  | nil => intro i; rfl
  | cons p ps ih =>
    intro i
    have ih' := ih (i + 1)
    unfold wrongToMisplaced at ih' ⊢
    simp only [List.map_cons, correctIndices, ih']
    by_cases h : p.Letter = L ∧ p.Status = GuessPositionWrong
    · rw [if_pos h]
      have h1 : ¬ (p.Status = GuessPositionCorrect ∧ p.Letter = c) := by
        rw [h.2]; simp [GuessPositionWrong, GuessPositionCorrect]
      rw [if_neg h1]
      simp [GuessPositionMisplaced, GuessPositionCorrect]
    · rw [if_neg h]

theorem hasStatus_wrongToMisplaced (L : Char) (ps : List GuessPosition) (c : Char) :
    hasStatus (wrongToMisplaced L ps) c GuessPositionMisplaced
        = (hasStatus ps c GuessPositionMisplaced ||
            (decide (c = L) && hasStatus ps c GuessPositionWrong)) ∧
    hasStatus (wrongToMisplaced L ps) c GuessPositionWrong
        = (!decide (c = L) && hasStatus ps c GuessPositionWrong) := by
  induction ps with
  | nil => simp [wrongToMisplaced, hasStatus]
  | cons p ps ih =>
    obtain ⟨ih1, ih2⟩ := ih
    unfold wrongToMisplaced at ih1 ih2 ⊢
    simp only [List.map_cons, hasStatus_cons, ih1, ih2]
    obtain ⟨l, s⟩ := p
    simp only [GuessPositionWrong, GuessPositionMisplaced]
    by_cases hl : l = L <;> by_cases hs : s = 1 <;> by_cases hc : c = L <;>
      by_cases hs2 : s = 2 <;> by_cases hlc : l = c <;>
      cases hasStatus ps c 2 <;> cases hasStatus ps c 1 <;> simp_all

theorem misplacedKeep_wrongToMisplaced (L : Char) (ps : List GuessPosition) (ls : List Char)
    (hmis : hasStatus ps L GuessPositionMisplaced = true) :
    misplacedKeep (wrongToMisplaced L ps) ls = misplacedKeep ps ls := by
  rw [Bool.eq_iff_iff, misplacedKeep_iff, misplacedKeep_iff]
  obtain ⟨p0, hp0, hl0, hs0⟩ := (hasStatus_iff ps L _).1 hmis
  constructor
  · intro h p hp hs
    have hne : ¬ (p.Letter = L ∧ p.Status = GuessPositionWrong) := by
      rw [hs]; simp [GuessPositionWrong, GuessPositionMisplaced]
    have hmem : p ∈ wrongToMisplaced L ps := by
      unfold wrongToMisplaced
      exact List.mem_map.2 ⟨p, hp, if_neg hne⟩
    exact h p hmem hs
  · intro h q hq hs
    unfold wrongToMisplaced at hq
    obtain ⟨p, hp, rfl⟩ := List.mem_map.1 hq
    by_cases hc : p.Letter = L ∧ p.Status = GuessPositionWrong
    · rw [if_pos hc]
      simp only
      rw [hc.1, ← hl0]
      exact h p0 hp0 hs0
    · rw [if_neg hc] at hs ⊢
      exact h p hp hs

theorem guessKeep_wrongToMisplaced (L : Char) (ps : List GuessPosition)
    (hmis : hasStatus ps L GuessPositionMisplaced = true) :
    guessKeep (wrongToMisplaced L ps) = guessKeep ps := by
  have hwrong : wrongOf (wrongToMisplaced L ps) = wrongOf ps := by
    funext c
    unfold wrongOf
    rw [(hasStatus_wrongToMisplaced L ps c).1, (hasStatus_wrongToMisplaced L ps c).2]
    by_cases hc : c = L
    · subst hc; simp [hmis]
    · simp [hc]
  have hcorrect : correctOf (wrongToMisplaced L ps) = correctOf ps := by
    funext c
    unfold correctOf
    rw [(hasStatus_wrongToMisplaced L ps c).1, correctIndices_wrongToMisplaced]
    by_cases hc : c = L
    · subst hc; simp [hmis]
    · simp [hc]
  funext ls
  unfold guessKeep
  rw [positionsKeep_wrongToMisplaced, misplacedKeep_wrongToMisplaced L ps ls hmis, hwrong,
    hcorrect]

theorem restrict_idem (keep : List Char → Bool) (ws : List DictionaryWord) :
    restrict keep (restrict keep ws) = restrict keep ws := by
  rw [restrict_restrict]
  congr 1
  funext ls
  exact Bool.and_self _

theorem restrict_comm (keep₁ keep₂ : List Char → Bool) (ws : List DictionaryWord) :
    restrict keep₁ (restrict keep₂ ws) = restrict keep₂ (restrict keep₁ ws) := by
  rw [restrict_restrict, restrict_restrict]
  congr 1
  funext ls
  exact Bool.and_comm _ _

theorem ScrubOp.apply_eq_restrict (op : ScrubOp) :
    ∃ keep : List Char → Bool, ∀ ws, op.apply ws = restrict keep ws := by
  cases op with
  | ofWord word => exact ⟨_, fun ws => scrubWord_eq_restrict word ws⟩
  | ofPositionWrong position letter =>
    exact ⟨_, fun ws => scrubPositionWrong_eq_restrict position letter ws⟩
  | ofPositionCorrect position letter =>
    exact ⟨_, fun ws => scrubPositionCorrect_eq_restrict position letter ws⟩
  | ofLetterMustBePresent letter =>
    exact ⟨_, fun ws => scrubLetterMustBePresent_eq_restrict letter ws⟩

theorem showTopLoop_eq (ws : List DictionaryWord) :
    ∀ shown, shown < 10 → showTopLoop ws shown = (liveWords ws).take (10 - shown) := by
  induction ws with
  | nil => intro shown _; simp [showTopLoop, liveWords]
  | cons dw rest ih =>
    intro shown hshown
    unfold showTopLoop
    cases hv : dw.Valid with
    | false =>
      simp only [Bool.not_false, if_true]
      rw [ih shown hshown]
      simp [liveWords, hv]
    | true =>
      simp only [Bool.not_true, Bool.false_eq_true, if_false]
      have hlive : liveWords (dw :: rest) = dw.getWord :: liveWords rest := by
        simp [liveWords, hv]
      rw [hlive]
      obtain ⟨n, hn⟩ : ∃ n, 10 - shown = n + 1 := ⟨9 - shown, by omega⟩
      rw [hn, List.take_succ_cons]
      congr 1
      by_cases h10 : shown + 1 = 10
      · have : n = 0 := by omega
        simp [h10, this]
      · rw [if_neg h10, ih (shown + 1) (by omega)]
        congr 1
        omega

theorem positionLoop_meets (realGuess : Bool) (gp : Nat) (guess : Guess)
    (input : List String) :
    ∀ (letter : Char) (ws : List DictionaryWord),
      (positionLoop realGuess gp guess letter ws input).Meets gp guess ws := by
  cases realGuess with
  | false =>
    intro letter ws
    unfold positionLoop
    simp only []
    split
    · exact ⟨rfl, rfl⟩
    · simp only [Bool.false_eq_true, if_false]
      exact ⟨_, rfl, by rw [positionKeep_unknown, restrict_true]⟩
  | true =>
    induction input with
    | nil =>
      intro letter ws
      unfold positionLoop
      simp only []
      split
      · exact ⟨rfl, rfl⟩
      · simp only [if_true]
        rfl
    | cons status input ih =>
      intro letter ws
      unfold positionLoop
      simp only []
      split
      · exact ⟨rfl, rfl⟩
      · simp only [if_true]
        split
        · exact ⟨_, rfl, by rw [positionKeep_unknown, restrict_true]⟩
        split
        · exact ⟨_, rfl, by rw [positionKeep_wrong, scrubPositionWrong_eq_restrict]⟩
        split
        · exact ⟨_, rfl, by rw [positionKeep_misplaced, scrubPositionWrong_eq_restrict]⟩
        split
        · exact ⟨_, rfl, by rw [positionKeep_correct, scrubPositionCorrect_eq_restrict]⟩
        split
        · rfl
        · exact ih _ ws

theorem positionLoop_assigned_runeLen (realGuess : Bool) (gp : Nat) (guess : Guess)
    (input : List String) (letter : Char) (ws : List DictionaryWord) (g' : Guess)
    (ws' : List DictionaryWord) (rest : List String)
    (h : positionLoop realGuess gp guess letter ws input = .assigned g' ws' rest) :
    runeLen letter = 1 := by
  unfold positionLoop at h
  simp only [] at h
  split at h
  · simp at h
  · rename_i hletter
    simp at hletter
    unfold runeLen
    have : letter.toNat < 128 := by omega
    simp [this]

theorem positionLoop_restrict (realGuess : Bool) (gp : Nat) (guess : Guess)
    (input : List String) (letter : Char) (ws : List DictionaryWord) :
    ∃ keep : List Char → Bool,
      (positionLoop realGuess gp guess letter ws input).dictionaryWords = restrict keep ws := by
  have h := positionLoop_meets realGuess gp guess input letter ws
  cases hr : positionLoop realGuess gp guess letter ws input with
  | assigned g' ws' rest =>
    rw [hr] at h
    obtain ⟨p, _, hws⟩ := h
    exact ⟨_, hws⟩
  | invalid g' ws' rest =>
    rw [hr] at h
    exact ⟨fun _ => true, by rw [restrict_true]; exact h.2⟩
  | quit ws' =>
    rw [hr] at h
    exact ⟨fun _ => true, by rw [restrict_true]; exact h⟩
  | starved ws' =>
    rw [hr] at h
    exact ⟨fun _ => true, by rw [restrict_true]; exact h⟩

theorem guessLoop_restrict (realGuess : Bool) (cs : List Char) :
    ∀ (k : Nat) (guess : Guess) (ws : List DictionaryWord) (input : List String),
      ∃ keep : List Char → Bool,
        (guessLoop realGuess k cs guess ws input).dictionaryWords = restrict keep ws := by
  induction cs with
  | nil =>
    intro k guess ws input
    exact ⟨fun _ => true, by rw [restrict_true]; rfl⟩
  | cons c cs ih =>
    intro k guess ws input
    obtain ⟨keep, hkeep⟩ := positionLoop_restrict realGuess k guess input c ws
    unfold guessLoop
    cases hr : positionLoop realGuess k guess c ws input with
    | assigned g' ws' rest =>
      rw [hr] at hkeep
      simp only []
      obtain ⟨keep', hkeep'⟩ := ih (k + runeLen c) g' ws' rest
      refine ⟨fun ls => keep ls && keep' ls, ?_⟩
      rw [hkeep', show ws' = restrict keep ws from hkeep, restrict_restrict]
    | invalid g' ws' rest => rw [hr] at hkeep; exact ⟨keep, hkeep⟩
    | quit ws' => rw [hr] at hkeep; exact ⟨keep, hkeep⟩
    | starved ws' => rw [hr] at hkeep; exact ⟨keep, hkeep⟩

theorem promptGuess_restrict (realGuess : Bool) (input : List String) :
    ∀ state : State, ∃ keep : List Char → Bool,
      (promptGuess realGuess state input).state.dictionaryWords
        = restrict keep state.dictionaryWords := by
  induction input with
  | nil =>
    intro state
    exact ⟨fun _ => true, by rw [restrict_true]; rfl⟩
  | cons word input ih =>
    intro state
    unfold promptGuess
    split
    · exact ⟨fun _ => true, by rw [restrict_true]; rfl⟩
    split
    · exact ih state
    split
    · exact ih state
    obtain ⟨keep, hkeep⟩ := guessLoop_restrict realGuess word.toList 0
      { newGuess with Valid := true } state.dictionaryWords input
    cases hr : guessLoop realGuess 0 word.toList { newGuess with Valid := true }
        state.dictionaryWords input with
    | quit ws' => rw [hr] at hkeep; exact ⟨keep, hkeep⟩
    | starved ws' => rw [hr] at hkeep; exact ⟨keep, hkeep⟩
    | done g' ws' rest =>
      rw [hr] at hkeep
      simp only []
      split
      · exact ⟨keep, hkeep⟩
      · split
        · have hws : ws' = restrict keep state.dictionaryWords := hkeep
          refine ⟨fun ls => keep ls && (misplacedKeep g'.Positions ls &&
            completeLetterLoop (wrongOf g'.Positions) (correctOf g'.Positions) 0 ls true), ?_⟩
          show finalizeGuess g' ws' = _
          rw [finalizeGuess_eq_restrict, hws, restrict_restrict]
        · exact ⟨keep, hkeep⟩

theorem guessLoop_done_prefix (realGuess : Bool) (cs : List Char) :
    ∀ (k : Nat) (guess : Guess) (ws : List DictionaryWord) (input : List String) (g' : Guess)
      (ws' : List DictionaryWord) (rest : List String),
      guessLoop realGuess k cs guess ws input = .done g' ws' rest →
      k + cs.length ≤ 256 →
      ∃ ps : List GuessPosition, ps.length ≤ cs.length ∧
        g'.Positions = writeFrom k ps guess.Positions ∧
        ws' = restrict (positionsKeep k ps) ws := by
  induction cs with
  | nil =>
    intro k guess ws input g' ws' rest h _
    simp only [guessLoop, GuessLoopResult.done.injEq] at h
    refine ⟨[], by simp, ?_, ?_⟩
    · rw [← h.1]; rfl
    · rw [← h.2.1]
      exact (restrict_true ws).symm
  | cons c cs ih =>
    intro k guess ws input g' ws' rest h hk
    simp only [List.length_cons] at hk
    have hmeets := positionLoop_meets realGuess k guess input c ws
    unfold guessLoop at h
    split at h
    · rename_i g1 ws1 in1 hpos
      have hlen := positionLoop_assigned_runeLen realGuess k guess input c ws g1 ws1 in1 hpos
      rw [hpos] at hmeets
      obtain ⟨p, hg1, hws1⟩ := hmeets
      rw [hlen] at h
      obtain ⟨ps, hps, hg', hws'⟩ := ih (k + 1) g1 ws1 in1 g' ws' rest h (by omega)
      have hmod : k % 256 = k := Nat.mod_eq_of_lt (by omega)
      rw [hmod] at hg1 hws1
      refine ⟨p :: ps, by simp; omega, ?_, ?_⟩
      · rw [hg', hg1]; rfl
      · rw [hws', hws1, restrict_restrict]; rfl
    · rename_i g1 ws1 in1 hpos
      simp only [GuessLoopResult.done.injEq] at h
      rw [hpos] at hmeets
      obtain ⟨hg1, hws1⟩ := hmeets
      refine ⟨[], by simp, ?_, ?_⟩
      · rw [← h.1, hg1]; rfl
      · rw [← h.2.1, hws1]
        exact (restrict_true ws).symm
    · simp at h
    · simp at h

theorem writeFrom_zero_prefix (ps : List GuessPosition) (z : GuessPosition)
    (hps : ps.length ≤ 5) :
    writeFrom 0 ps (List.replicate 5 z) = ps ++ List.replicate (5 - ps.length) z := by
  match ps, hps with
  | [], _ => rfl
  | [_], _ => rfl
  | [_, _], _ => rfl
  | [_, _, _], _ => rfl
  | [_, _, _, _], _ => rfl
  | [_, _, _, _, _], _ => rfl
  | _ :: _ :: _ :: _ :: _ :: _ :: _, h => simp at h

theorem positionsKeep_append_unknown (ps : List GuessPosition) (c : Char) (n : Nat)
    (ls : List Char) :
    ∀ i, positionsKeep i (ps ++ List.replicate n ⟨c, GuessPositionUnknown⟩) ls
      = positionsKeep i ps ls := by
  induction ps with
  | nil =>
    intro i
    simp only [List.nil_append, positionsKeep]
    induction n generalizing i with
    | zero => rfl
    | succ n ih =>
      simp only [List.replicate_succ, positionsKeep, positionKeep_unknown, Bool.true_and]
      exact ih (i + 1)
  | cons p ps ih =>
    intro i
    rw [List.cons_append]
    simp only [positionsKeep]
    rw [ih (i + 1)]

/-- What a real guess that is returned as not valid leaves behind: history
and round as they were, and the dictionary scrubbed by the positions that
were stored in the guess before the loop ended. -/
theorem promptGuess_rejected (input : List String) :
    ∀ (state : State) (guess : Guess) (state' : State) (rest : List String),
      promptGuess true state input = .returned guess state' rest → guess.Valid = false →
      state'.currentGuess = state.currentGuess ∧ state'.guesses = state.guesses ∧
      state'.dictionaryWords
        = restrict (positionsKeep 0 guess.Positions) state.dictionaryWords := by
  induction input with
  | nil => intro state guess state' rest h; simp [promptGuess] at h
  | cons word input ih =>
    intro state guess state' rest h hinvalid
    unfold promptGuess at h
    split at h
    · simp at h
    split at h
    · exact ih state guess state' rest h hinvalid
    split at h
    · exact ih state guess state' rest h hinvalid
    rename_i hlen
    simp only [ne_eq, Decidable.not_not] at hlen
    split at h
    · simp at h
    · simp at h
    · rename_i g ws in1 hloop
      have hle := length_le_sum_runeLen word.toList
      unfold byteLen at hlen
      obtain ⟨ps, hps, hg', hws'⟩ := guessLoop_done_prefix true word.toList 0 _ _ _ g ws in1
        hloop (by omega)
      have hpos : g.Positions = ps ++ List.replicate (5 - ps.length)
          ⟨Char.ofNat 0, GuessPositionUnknown⟩ := by
        rw [hg']
        exact writeFrom_zero_prefix ps _ (by omega)
      split at h
      · simp only [Outcome.returned.injEq] at h
        obtain ⟨h1, h2, _⟩ := h
        subst h1
        rw [← h2]
        refine ⟨rfl, rfl, ?_⟩
        show ws = _
        rw [hws', hpos]
        congr 1
        funext ls
        exact (positionsKeep_append_unknown ps _ _ ls 0).symm
      · rename_i hcond
        split at h
        · simp only [Outcome.returned.injEq] at h
          rw [h.1] at hcond
          simp [hinvalid] at hcond
        · simp at h


theorem positionLoop_not_letter (realGuess : Bool) (gp : Nat) (guess : Guess) (c : Char)
    (ws : List DictionaryWord) (input : List String) (h : isLetter c = false) :
    positionLoop realGuess gp guess c ws input
      = .invalid { guess with Valid := false } ws input := by
  unfold isLetter at h
  unfold positionLoop
  simp only []
  rw [h]
  rfl

theorem toNat_ofNat_small (m : Nat) (h : m < 128) : (Char.ofNat m).toNat = m := by
  have hv : m.isValidChar := Or.inl (by omega)
  simp only [Char.ofNat, hv, dite_true, Char.toNat, Char.ofNatAux]
  rfl

theorem asciiUpper_toNat (c : Char) (h : c.toNat < 128) :
    (asciiUpper c).toNat = if 0x61 ≤ c.toNat ∧ c.toNat ≤ 0x7A then c.toNat - 32 else c.toNat := by
  unfold asciiUpper
  split
  · exact toNat_ofNat_small _ (by omega)
  · rfl

theorem asciiUpper_lt (c : Char) (h : c.toNat < 128) : (asciiUpper c).toNat < 128 := by
  rw [asciiUpper_toNat c h]
  split <;> omega

theorem runeLen_of_lt (c : Char) (h : c.toNat < 128) : runeLen c = 1 := by
  unfold runeLen
  simp [h]

theorem byteLen_of_isAscii (w : String) (h : IsAscii w) : byteLen w = w.length := by
  unfold byteLen
  rw [sum_runeLen_eq_length _ (fun c hc => runeLen_of_lt c (h c hc))]
  rfl

theorem unicodeToUpper_onAscii : UpperOnAscii unicodeToUpper := by
  intro c hc
  unfold unicodeToUpper asciiUpper
  split
  · rfl
  · rw [if_neg (by omega), if_neg (by omega), if_neg (by omega)]

theorem newDictionaryWord_of_ascii (cs : List Char) (hlen : cs.length = 5)
    (hascii : ∀ c ∈ cs, c.toNat < 128) :
    newDictionaryWord (String.mk cs) = some { Value := 0, Valid := true, Letters := cs } := by
  match cs, hlen with
  | [a, b, c, d, e], _ =>
    have ha := runeLen_of_lt a (hascii a (by simp))
    have hb := runeLen_of_lt b (hascii b (by simp))
    have hc := runeLen_of_lt c (hascii c (by simp))
    have hd := runeLen_of_lt d (hascii d (by simp))
    have he := runeLen_of_lt e (hascii e (by simp))
    simp [newDictionaryWord, newDictionaryWordLoop, ha, hb, hc, hd, he]

theorem loadLoop_of_ascii (upper : Char → Char) (hupper : UpperOnAscii upper)
    (words : List String) :
    ∀ (acc : List DictionaryWord), (∀ w ∈ words, IsAscii w) →
      loadLoop upper words acc
        = some (acc ++ (words.filter fun w => decide (w.length = 5)).map (recordOf upper)) := by
  induction words with
  | nil => intro acc _; simp [loadLoop]
  | cons w rest ih =>
    intro acc hall
    have hw : IsAscii w := hall w (List.mem_cons_self _ _)
    have hrest : ∀ x ∈ rest, IsAscii x := fun x hx => hall x (List.mem_cons_of_mem _ hx)
    rw [loadLoop, byteLen_of_isAscii w hw]
    by_cases h5 : w.length = 5
    · rw [if_neg (not_not.2 h5)]
      have hrec : newDictionaryWord (ToUpper upper w) = some (recordOf upper w) := by
        unfold ToUpper recordOf
        apply newDictionaryWord_of_ascii
        · rw [List.length_map]; exact h5
        · intro c hc
          obtain ⟨c0, hc0, rfl⟩ := List.mem_map.1 hc
          rw [hupper c0 (hw c0 hc0)]
          exact asciiUpper_lt c0 (hw c0 hc0)
      rw [hrec]
      simp only []
      rw [ih _ hrest]
      simp [h5]
    · rw [if_pos h5, ih acc hrest]
      simp [h5]

theorem answersLoop_eq_restrict (answers : List String) :
    ∀ ws : List DictionaryWord,
      answersLoop answers ws = restrict (fun ls => !decide (String.mk ls ∈ answers)) ws := by
  induction answers with
  | nil =>
    intro ws
    simp only [answersLoop, List.not_mem_nil, decide_False, Bool.not_false]
    exact (restrict_true ws).symm
  | cons line rest ih =>
    intro ws
    rw [answersLoop, ih, scrubWord_eq_restrict, restrict_restrict]
    congr 1
    funext ls
    by_cases h1 : String.mk ls = line <;> by_cases h2 : String.mk ls ∈ rest <;>
      simp [h1, h2]

theorem liveWords_restrict (keep : List Char → Bool) (ws : List DictionaryWord) :
    liveWords (restrict keep ws)
      = (ws.filter fun dw => dw.Valid && keep dw.Letters).map fun dw => String.mk dw.Letters := by
  have hfun : (fun dw : DictionaryWord => dw.getWord) = fun dw => String.mk dw.Letters :=
    funext getWord_eq
  unfold liveWords restrict
  rw [hfun]
  induction ws with
  | nil => rfl
  | cons dw rest ih =>
    simp only [List.map_cons, List.filter_cons]
    by_cases hk : (dw.Valid && keep dw.Letters) = true
    · rw [if_pos hk, if_pos hk, List.map_cons, List.map_cons, ih]
    · rw [if_neg hk, if_neg hk, ih]

theorem liveWords_restrict_recordOf (upper : Char → Char) (keep : List Char → Bool)
    (words : List String) :
    liveWords (restrict keep (words.map (recordOf upper)))
      = (words.map (ToUpper upper)).filter fun w => keep w.toList := by
  rw [liveWords_restrict]
  induction words with
  | nil => rfl
  | cons w rest ih =>
    simp only [List.map_cons, List.filter_cons]
    have hrec : (recordOf upper w).Letters = (ToUpper upper w).toList := rfl
    have hvalid : (recordOf upper w).Valid = true := rfl
    rw [hrec, hvalid, Bool.true_and]
    by_cases hk : keep (ToUpper upper w).toList = true
    · rw [if_pos hk, if_pos hk, List.map_cons, ih]
      rfl
    · rw [if_neg hk, if_neg hk, ih]

theorem reachable_flag_of_letters {ws : List DictionaryWord} (h : Reachable ws) :
    ∃ keep : List Char → Bool, ∀ dw ∈ ws, dw.Valid = keep dw.Letters := by
  have hrestrict : ∀ (keep keep' : List Char → Bool) (ws : List DictionaryWord),
      (∀ dw ∈ ws, dw.Valid = keep dw.Letters) →
      ∀ dw ∈ restrict keep' ws, dw.Valid = (keep dw.Letters && keep' dw.Letters) := by
    intro keep keep' ws hws dw hdw
    unfold restrict at hdw
    obtain ⟨dw0, hdw0, rfl⟩ := List.mem_map.1 hdw
    simp only [hws dw0 hdw0]
  induction h with
  | fresh ws hlive => exact ⟨fun _ => true, hlive⟩
  | scrub op _ ih =>
    obtain ⟨keep, hkeep⟩ := ih
    obtain ⟨keep', hop⟩ := op.apply_eq_restrict
    rw [hop]
    exact ⟨fun ls => keep ls && keep' ls, hrestrict keep keep' _ hkeep⟩
  | finalize guess _ ih =>
    obtain ⟨keep, hkeep⟩ := ih
    rw [finalizeGuess_eq_restrict]
    exact ⟨fun ls => keep ls && (misplacedKeep guess.Positions ls &&
      completeLetterLoop (wrongOf guess.Positions) (correctOf guess.Positions) 0 ls true),
      hrestrict keep _ _ hkeep⟩
  | prompt realGuess state input _ ih =>
    obtain ⟨keep, hkeep⟩ := ih
    obtain ⟨keep', hp⟩ := promptGuess_restrict realGuess input state
    rw [hp]
    exact ⟨fun ls => keep ls && keep' ls, hrestrict keep keep' _ hkeep⟩

theorem checkLoop_iff (keep : List Char → Bool) (word : String) (ws : List DictionaryWord)
    (hws : ∀ dw ∈ ws, dw.Valid = keep dw.Letters) :
    checkLoop word ws false = true ↔ ∃ dw ∈ ws, dw.Valid = true ∧ dw.getWord = word := by
  induction ws with
  | nil => simp [checkLoop]
  | cons dw rest ih =>
    have ih' := ih (fun x hx => hws x (List.mem_cons_of_mem _ hx))
    unfold checkLoop
    by_cases hword : dw.getWord = word
    · rw [if_pos hword]
      constructor
      · intro h
        exact ⟨dw, List.mem_cons_self _ _, h, hword⟩
      · rintro ⟨b, hb, hbv, hbw⟩
        have hletters : b.Letters = dw.Letters := by
          have := hbw.trans hword.symm
          rw [getWord_eq, getWord_eq] at this
          injection this
        rw [hws dw (List.mem_cons_self _ _), ← hletters, ← hws b hb]
        exact hbv
    · rw [if_neg hword, ih']
      constructor
      · rintro ⟨b, hb, hbv, hbw⟩
        exact ⟨b, List.mem_cons_of_mem _ hb, hbv, hbw⟩
      · rintro ⟨b, hb, hbv, hbw⟩
        rcases List.mem_cons.1 hb with rfl | hb
        · exact absurd hbw hword
        · exact ⟨b, hb, hbv, hbw⟩

theorem positionLoop_false_letter (gp : Nat) (guess : Guess) (c : Char)
    (ws : List DictionaryWord) (input : List String) (h : isLetter c = true) :
    positionLoop false gp guess c ws input
      = .assigned
          ⟨guess.Valid, guess.Positions.set (gp % 256) ⟨upperLetter c, GuessPositionUnknown⟩⟩
          ws input := by
  unfold isLetter at h
  unfold positionLoop upperLetter
  simp only []
  rw [h]
  rfl

theorem runeLen_of_isLetter (c : Char) (h : isLetter c = true) : runeLen c = 1 := by
  unfold isLetter at h
  simp at h
  unfold runeLen
  have : c.toNat < 128 := by omega
  simp [this]

theorem promptGuess_false_five (state : State) (word : String) (input : List String)
    (a b c d e : Char) (hword : word.toList = [a, b, c, d, e])
    (ha : isLetter a = true) (hb : isLetter b = true) (hc : isLetter c = true)
    (hd : isLetter d = true) (he : isLetter e = true) :
    promptGuess false state (word :: input)
      = .returned ⟨true, [⟨upperLetter a, 0⟩, ⟨upperLetter b, 0⟩, ⟨upperLetter c, 0⟩,
          ⟨upperLetter d, 0⟩, ⟨upperLetter e, 0⟩]⟩ state input := by
  have hq : word ≠ "q" := by
    rintro rfl
    simp at hword
  have hh : word ≠ "h" := by
    rintro rfl
    simp at hword
  have hlen : byteLen word = 5 := by
    unfold byteLen
    rw [hword]
    simp [runeLen_of_isLetter _ ha, runeLen_of_isLetter _ hb, runeLen_of_isLetter _ hc,
      runeLen_of_isLetter _ hd, runeLen_of_isLetter _ he]
  rw [promptGuess, if_neg hq, if_neg hh, if_neg (not_not.2 hlen), hword]
  simp only [guessLoop, positionLoop_false_letter _ _ _ _ _ ha,
    positionLoop_false_letter _ _ _ _ _ hb, positionLoop_false_letter _ _ _ _ _ hc,
    positionLoop_false_letter _ _ _ _ _ hd, positionLoop_false_letter _ _ _ _ _ he,
    runeLen_of_isLetter _ ha, runeLen_of_isLetter _ hb, runeLen_of_isLetter _ hc,
    runeLen_of_isLetter _ hd, runeLen_of_isLetter _ he]
  rfl

theorem guess_getWord_eq (g : Guess) :
    g.getWord = String.mk (g.Positions.map fun p => p.Letter) := by
  have h : ∀ (ps : List GuessPosition) (acc : String),
      ps.foldl (fun str position => str ++ String.singleton position.Letter) acc
        = acc ++ String.mk (ps.map fun p => p.Letter) := by
    intro ps
    induction ps with
    | nil => intro acc; apply String.ext; simp
    | cons p ps ih =>
      intro acc
      rw [List.foldl_cons, ih]
      apply String.ext
      simp [String.singleton]
  unfold Guess.getWord
  rw [h]
  rfl

theorem mem_unmatched_subset (secret : List Char) :
    ∀ (guess : List Char) (x : Char), x ∈ unmatched secret guess → x ∈ secret := by
  induction secret with
  | nil => intro guess x h; cases guess <;> simp [unmatched] at h
  | cons s secret ih =>
    intro guess x h
    cases guess with
    | nil => simp [unmatched] at h
    | cons g guess =>
      simp only [unmatched] at h
      split at h
      · exact List.mem_cons_of_mem _ (ih guess x h)
      · rcases List.mem_cons.1 h with rfl | h
        · exact List.mem_cons_self _ _
        · exact List.mem_cons_of_mem _ (ih guess x h)

theorem mem_unmatched_of_differ (secret : List Char) :
    ∀ (guess : List Char) (k : Nat) (l g : Char), secret[k]? = some l → guess[k]? = some g →
      l ≠ g → l ∈ unmatched secret guess := by
  induction secret with
  | nil => intro guess k l g h; simp at h
  | cons s secret ih =>
    intro guess k l g hs hg hne
    cases guess with
    | nil => simp at hg
    | cons g0 guess =>
      simp only [unmatched]
      cases k with
      | zero =>
        simp only [List.getElem?_cons_zero, Option.some.injEq] at hs hg
        subst hs hg
        rw [if_neg hne]
        exact List.mem_cons_self _ _
      | succ k =>
        simp only [List.getElem?_cons_succ] at hs hg
        have := ih guess k l g hs hg hne
        split
        · exact this
        · exact List.mem_cons_of_mem _ this

/-- What the scoring says at one position: the letter of the guess, with
Correct when the secret has it there, and otherwise Misplaced, for a letter
of the pool, or Wrong. -/
theorem scoreFrom_getElem? (secret : List Char) :
    ∀ (guess pool : List Char) (k : Nat) (p : GuessPosition),
      (scoreFrom secret guess pool)[k]? = some p →
      ∃ s : Char, secret[k]? = some s ∧ guess[k]? = some p.Letter ∧
        ((p.Status = GuessPositionCorrect ∧ s = p.Letter) ∨
         (p.Status = GuessPositionMisplaced ∧ s ≠ p.Letter ∧ p.Letter ∈ pool) ∨
         (p.Status = GuessPositionWrong ∧ s ≠ p.Letter)) := by
  induction secret with
  | nil => intro guess pool k p h; simp [scoreFrom] at h
  | cons s secret ih =>
    intro guess pool k p h
    cases guess with
    | nil => simp [scoreFrom] at h
    | cons g guess =>
      simp only [scoreFrom] at h
      cases k with
      | zero =>
        refine ⟨s, List.getElem?_cons_zero, ?_⟩
        split at h
        · rename_i hsg
          simp only [List.getElem?_cons_zero, Option.some.injEq] at h
          subst h
          exact ⟨List.getElem?_cons_zero, Or.inl ⟨rfl, hsg⟩⟩
        · rename_i hsg
          split at h
          · rename_i hpool
            simp only [List.getElem?_cons_zero, Option.some.injEq] at h
            subst h
            exact ⟨List.getElem?_cons_zero, Or.inr (Or.inl ⟨rfl, hsg, hpool⟩)⟩
          · simp only [List.getElem?_cons_zero, Option.some.injEq] at h
            subst h
            exact ⟨List.getElem?_cons_zero, Or.inr (Or.inr ⟨rfl, hsg⟩)⟩
      | succ k =>
        have hstep : ∀ pool', (scoreFrom secret guess pool')[k]? = some p →
            (∀ x, x ∈ pool' → x ∈ pool) →
            ∃ s0 : Char, (s :: secret)[k + 1]? = some s0 ∧ (g :: guess)[k + 1]? = some p.Letter ∧
              ((p.Status = GuessPositionCorrect ∧ s0 = p.Letter) ∨
               (p.Status = GuessPositionMisplaced ∧ s0 ≠ p.Letter ∧ p.Letter ∈ pool) ∨
               (p.Status = GuessPositionWrong ∧ s0 ≠ p.Letter)) := by
          intro pool' h' hsub
          obtain ⟨s0, h1, h2, h3⟩ := ih guess pool' k p h'
          refine ⟨s0, by simpa using h1, by simpa using h2, ?_⟩
          rcases h3 with h3 | ⟨h3, h4, h5⟩ | h3
          · exact Or.inl h3
          · exact Or.inr (Or.inl ⟨h3, h4, hsub _ h5⟩)
          · exact Or.inr (Or.inr h3)
        split at h
        · exact hstep pool (by simpa using h) (fun _ hx => hx)
        · split at h
          · exact hstep (pool.erase g) (by simpa using h) (fun _ hx => List.mem_of_mem_erase hx)
          · exact hstep pool (by simpa using h) (fun _ hx => hx)

theorem scoreFrom_correct_at (secret : List Char) :
    ∀ (guess pool : List Char) (k : Nat) (s : Char), secret[k]? = some s → guess[k]? = some s →
      (scoreFrom secret guess pool)[k]? = some ⟨s, GuessPositionCorrect⟩ := by
  induction secret with
  | nil => intro guess pool k s h; simp at h
  | cons s0 secret ih =>
    intro guess pool k s hs hg
    cases guess with
    | nil => simp at hg
    | cons g guess =>
      simp only [scoreFrom]
      cases k with
      | zero =>
        simp only [List.getElem?_cons_zero, Option.some.injEq] at hs hg
        subst hs hg
        simp
      | succ k =>
        simp only [List.getElem?_cons_succ] at hs hg
        split
        · simpa using ih guess pool k s hs hg
        · split
          · simpa using ih guess (pool.erase g) k s hs hg
          · simpa using ih guess pool k s hs hg

/-- A letter of the pool that is nowhere marked Misplaced is nowhere marked
Wrong: it stays in the pool, and a guess of it that is not in place finds it
there. -/
theorem scoreFrom_no_wrong (secret : List Char) :
    ∀ (guess pool : List Char) (l : Char), l ∈ pool →
      (∀ p ∈ scoreFrom secret guess pool,
        ¬ (p.Letter = l ∧ p.Status = GuessPositionMisplaced)) →
      ∀ p ∈ scoreFrom secret guess pool, ¬ (p.Letter = l ∧ p.Status = GuessPositionWrong) := by
  induction secret with
  | nil => intro guess pool l _ _ p hp; simp [scoreFrom] at hp
  | cons s secret ih =>
    intro guess pool l hl hmis p hp
    cases guess with
    | nil => simp [scoreFrom] at hp
    | cons g guess =>
      simp only [scoreFrom] at hmis hp
      split at hp
      · rename_i hsg
        rw [if_pos hsg] at hmis
        rcases List.mem_cons.1 hp with rfl | hp
        · simp [GuessPositionCorrect, GuessPositionWrong]
        · exact ih guess pool l hl (fun q hq => hmis q (List.mem_cons_of_mem _ hq)) p hp
      · rename_i hsg
        rw [if_neg hsg] at hmis
        split at hp
        · rename_i hpool
          rw [if_pos hpool] at hmis
          have hgl : g ≠ l := by
            intro e
            exact hmis _ (List.mem_cons_self _ _) ⟨e, rfl⟩
          rcases List.mem_cons.1 hp with rfl | hp
          · simp [GuessPositionMisplaced, GuessPositionWrong]
          · exact ih guess (pool.erase g) l ((List.mem_erase_of_ne (Ne.symm hgl)).2 hl)
              (fun q hq => hmis q (List.mem_cons_of_mem _ hq)) p hp
        · rename_i hpool
          rw [if_neg hpool] at hmis
          rcases List.mem_cons.1 hp with rfl | hp
          · rintro ⟨e, _⟩
            simp only at e
            exact hpool (e ▸ hl)
          · exact ih guess pool l hl (fun q hq => hmis q (List.mem_cons_of_mem _ hq)) p hp

theorem mem_correctIndices (ps : List GuessPosition) (c : Char) :
    ∀ (i k : Nat) (p : GuessPosition), ps[k]? = some p → p.Status = GuessPositionCorrect →
      p.Letter = c → i + k ∈ correctIndices i ps c := by
  induction ps with
  | nil => intro i k p h; simp at h
  | cons q qs ih =>
    intro i k p hk hs hl
    simp only [correctIndices]
    cases k with
    | zero =>
      simp only [List.getElem?_cons_zero, Option.some.injEq] at hk
      subst hk
      rw [if_pos ⟨hs, hl⟩]
      simp
    | succ k =>
      simp only [List.getElem?_cons_succ] at hk
      have := ih (i + 1) k p hk hs hl
      rw [show i + 1 + k = i + (k + 1) by omega] at this
      split
      · exact List.mem_cons_of_mem _ this
      · exact this

theorem completeLetterLoop_of_allowed (wrongLetters : Char → Option Bool)
    (correctLetterPositions : Char → Option (List Nat)) (ls : List Char) :
    ∀ j0, (∀ (j : Nat) (l : Char), ls[j]? = some l → (wrongLetters l).isSome = true →
        ∃ idx, correctLetterPositions l = some idx ∧ j0 + j ∈ idx) →
      completeLetterLoop wrongLetters correctLetterPositions j0 ls true = true := by
  induction ls with
  | nil => intro j0 _; rfl
  | cons c cs ih =>
    intro j0 h
    simp only [completeLetterLoop]
    by_cases hw : (wrongLetters c).isSome = true
    · obtain ⟨idx, hidx, hmem⟩ := h 0 c (by simp) hw
      simp only [Nat.add_zero] at hmem
      simp [hw, hidx, hmem]
    · simp only [Bool.not_eq_true] at hw
      simp only [hw, Bool.not_false, if_true]
      apply ih (j0 + 1)
      intro j l hj hwl
      obtain ⟨idx, hidx, hmem⟩ := h (j + 1) l (by simpa using hj) hwl
      exact ⟨idx, hidx, by rwa [show j0 + 1 + j = j0 + (j + 1) by omega]⟩

/-- The scored guess keeps the secret: every test that an accepted guess with
the statuses of the puzzle applies holds of the letters of the secret. -/
theorem guessKeep_score (secret guess : List Char) (hlen : secret.length = guess.length) :
    guessKeep (score secret guess) secret = true := by
  simp only [guessKeep, Bool.and_eq_true]
  refine ⟨?_, ?_, ?_⟩
  · rw [positionsKeep_iff]
    intro k p hk
    obtain ⟨s, hs, _, hcase⟩ := scoreFrom_getElem? secret guess _ k p hk
    rw [Nat.zero_add]
    obtain ⟨l, st⟩ := p
    simp only at hcase
    rcases hcase with ⟨rfl, rfl⟩ | ⟨rfl, hne, _⟩ | ⟨rfl, hne⟩
    · rw [positionKeep_correct]
      simp [hs]
    · rw [positionKeep_misplaced]
      simp [hs, hne]
    · rw [positionKeep_wrong]
      simp [hs, hne]
  · rw [misplacedKeep_iff]
    intro p hp hstatus
    obtain ⟨k, hk⟩ := List.mem_iff_getElem?.1 hp
    obtain ⟨s, _, _, hcase⟩ := scoreFrom_getElem? secret guess _ k p hk
    rcases hcase with ⟨h, _⟩ | ⟨_, _, hpool⟩ | ⟨h, _⟩
    · rw [hstatus] at h
      simp [GuessPositionMisplaced, GuessPositionCorrect] at h
    · exact mem_unmatched_subset secret guess _ hpool
    · rw [hstatus] at h
      simp [GuessPositionMisplaced, GuessPositionWrong] at h
  · apply completeLetterLoop_of_allowed
    intro j l hj hwrong
    obtain ⟨hw, hm⟩ := (wrongOf_isSome _ l).1 hwrong
    have hnoMis : ∀ p ∈ score secret guess,
        ¬ (p.Letter = l ∧ p.Status = GuessPositionMisplaced) := by
      intro p hp hpl
      rw [Bool.eq_false_iff] at hm
      exact hm ((hasStatus_iff _ _ _).2 ⟨p, hp, hpl.1, hpl.2⟩)
    obtain ⟨q, hq, hql, hqs⟩ := (hasStatus_iff _ _ _).1 hw
    have hjlt : j < guess.length := by
      rw [← hlen]
      exact (List.getElem?_eq_some_iff.1 hj).1
    obtain ⟨g, hg⟩ : ∃ g, guess[j]? = some g := ⟨guess[j], List.getElem?_eq_getElem hjlt⟩
    have hgl : g = l := by
      by_contra hne
      have hpool := mem_unmatched_of_differ secret guess j l g hj hg (fun e => hne e.symm)
      exact scoreFrom_no_wrong secret guess _ l hpool hnoMis q hq ⟨hql, hqs⟩
    subst hgl
    have hcorrect := scoreFrom_correct_at secret guess (unmatched secret guess) j g hj hg
    have hmem := mem_correctIndices (score secret guess) g 0 j _ hcorrect rfl rfl
    refine ⟨correctIndices 0 (score secret guess) g, ?_, hmem⟩
    unfold correctOf
    rw [hm]
    have hne : correctIndices 0 (score secret guess) g ≠ [] := by
      intro e
      rw [e] at hmem
      simp at hmem
    simp [hne]

/-- The map `wrongLetters`, as lines 354-374 leave it for the positions `ps`,
has the letters with a Wrong and no Misplaced position as its keys. -/
theorem classified_wrongLetters (ps : List GuessPosition) (k0 : Classification)
    (hk0w : k0.wrongLetters = fun _ => none) (hk0m : k0.misplacedLetters = []) :
    (deleteMisplaced (classifyLoop 0 ps k0).misplacedLetters
      (classifyLoop 0 ps k0)).wrongLetters = wrongOf ps := by
  obtain ⟨_, hw, _⟩ := deleteMisplaced_spec (classifyLoop 0 ps k0).misplacedLetters
    (classifyLoop 0 ps k0)
  have hmem : ∀ c, c ∈ (classifyLoop 0 ps k0).misplacedLetters
      ↔ hasStatus ps c GuessPositionMisplaced = true := by
    intro c
    rw [classifyLoop_misplacedLetters, hk0m]
    simp
  funext c
  rw [hw, classifyLoop_wrongLetters, hk0w]
  unfold wrongOf
  by_cases hm : hasStatus ps c GuessPositionMisplaced = true
  · simp [(hmem c).2 hm, hm]
  · have : c ∉ (classifyLoop 0 ps k0).misplacedLetters := fun h => hm ((hmem c).1 h)
    simp [this, hm]

/-! ## The claims -/

/-- C1. Monotonicity: after `scrubWord`, `scrubPositionWrong`,
`scrubPositionCorrect`, `scrubLetterMustBePresent`, the complete-letter pass
(with any two maps) and the whole finalization of a guess, the live set is a
subset of the live set before: no flag goes from false to true. -/
theorem scrub_operations_monotone (dictionaryWords : List DictionaryWord) (word : String)
    (position : Nat) (letter : Char) (wrongLetters : Char → Option Bool)
    (correctLetterPositions : Char → Option (List Nat)) (guess : Guess) :
    liveSet (scrubWord word dictionaryWords) ⊆ liveSet dictionaryWords ∧
    liveSet (scrubPositionWrong position letter dictionaryWords) ⊆ liveSet dictionaryWords ∧
    liveSet (scrubPositionCorrect position letter dictionaryWords) ⊆ liveSet dictionaryWords ∧
    liveSet (scrubLetterMustBePresent letter dictionaryWords) ⊆ liveSet dictionaryWords ∧
    liveSet (completeLetterPass wrongLetters correctLetterPositions dictionaryWords)
      ⊆ liveSet dictionaryWords ∧
    liveSet (finalizeGuess guess dictionaryWords) ⊆ liveSet dictionaryWords := by
  rw [scrubWord_eq_restrict, scrubPositionWrong_eq_restrict, scrubPositionCorrect_eq_restrict,
    scrubLetterMustBePresent_eq_restrict, completeLetterPass_eq_restrict,
    finalizeGuess_eq_restrict]
  exact ⟨liveSet_restrict _ _, liveSet_restrict _ _, liveSet_restrict _ _,
    liveSet_restrict _ _, liveSet_restrict _ _, liveSet_restrict _ _⟩

/-- C2 fails on the code. The guess LLAMA with the first L Correct and L, A,
M, A Wrong is accepted; M has only Wrong occurrences, yet LEMON, which
contains M, is live afterwards: the complete-letter loop breaks at the L of
LEMON, a Wrong letter standing at one of its Correct positions, and never
looks at the M. -/
theorem all_wrong_letter_kept_behind_correct_letter :
    promptGuess true (initState [⟨0, true, "LEMON".toList⟩])
        ["LLAMA", "c", "w", "w", "w", "w"]
      = .returned llamaGuess
          { dictionaryWords := [⟨0, true, "LEMON".toList⟩]
            currentGuess := 1
            guesses := [llamaGuess, zeroGuess, zeroGuess, zeroGuess, zeroGuess] } [] ∧
    llamaGuess.Valid = true ∧
    (∃ p ∈ llamaGuess.Positions, p.Letter = 'M') ∧
    (∀ p ∈ llamaGuess.Positions, p.Letter = 'M' → p.Status = GuessPositionWrong) ∧
    'M' ∈ "LEMON".toList := by
  refine ⟨by decide, by decide, by decide, by decide, by decide⟩

/-- C3 fails on the code. The guess LLAMA with the first L Correct and L, A,
M, A Wrong is accepted; L has a Correct occurrence (index 0), a Wrong one
(index 1) and no Misplaced one, yet LEVEL, which has L at index 4 too, is
live afterwards: the complete-letter loop breaks at the first L of LEVEL and
never looks at the last one. -/
theorem correct_and_wrong_letter_kept_at_other_position :
    promptGuess true (initState [⟨0, true, "LEVEL".toList⟩])
        ["LLAMA", "c", "w", "w", "w", "w"]
      = .returned llamaGuess
          { dictionaryWords := [⟨0, true, "LEVEL".toList⟩]
            currentGuess := 1
            guesses := [llamaGuess, zeroGuess, zeroGuess, zeroGuess, zeroGuess] } [] ∧
    llamaGuess.Valid = true ∧
    llamaGuess.Positions[0]? = some ⟨'L', GuessPositionCorrect⟩ ∧
    llamaGuess.Positions[1]? = some ⟨'L', GuessPositionWrong⟩ ∧
    (∀ p ∈ llamaGuess.Positions, p.Letter = 'L' → p.Status ≠ GuessPositionMisplaced) ∧
    "LEVEL".toList[4]? = some 'L' ∧
    llamaGuess.Positions[4]? ≠ some ⟨'L', GuessPositionCorrect⟩ := by
  refine ⟨by decide, by decide, by decide, by decide, by decide, by decide, by decide⟩

/-- C4. An accepted real guess with no Misplaced position and no letter
marked both Wrong and Correct: the dictionary keeps its records, and a record
is live afterwards exactly when it was live before, has every Correct letter
at its marked position and contains none of the Wrong-marked letters. -/
theorem guess_without_misplaced_exact (state : State) (input : List String)
    (guess : Guess) (state' : State) (rest : List String)
    (hrun : promptGuess true state input = .returned guess state' rest)
    (hvalid : guess.Valid = true)
    (hnoMisplaced : ∀ p ∈ guess.Positions, p.Status ≠ GuessPositionMisplaced)
    (hnoBoth : ∀ p ∈ guess.Positions, ∀ q ∈ guess.Positions, p.Status = GuessPositionWrong →
      q.Status = GuessPositionCorrect → p.Letter ≠ q.Letter) :
    state'.dictionaryWords.length = state.dictionaryWords.length ∧
    ∀ (i : Nat) (dw : DictionaryWord), state.dictionaryWords[i]? = some dw →
      ∃ dw' : DictionaryWord, state'.dictionaryWords[i]? = some dw' ∧
        dw'.Letters = dw.Letters ∧ dw'.Value = dw.Value ∧
        (dw'.Valid = true ↔ dw.Valid = true ∧
          (∀ (k : Nat) (p : GuessPosition), guess.Positions[k]? = some p →
            p.Status = GuessPositionCorrect → dw.Letters[k]? = some p.Letter) ∧
          (∀ p ∈ guess.Positions, p.Status = GuessPositionWrong → p.Letter ∉ dw.Letters)) := by
  obtain ⟨_, _, hws, _, _⟩ := promptGuess_accepted input state guess state' rest hrun hvalid
  rw [hws]
  refine ⟨restrict_length _ _, ?_⟩
  intro i dw hi
  rw [restrict_getElem?, hi]
  refine ⟨_, rfl, rfl, rfl, ?_⟩
  simp only [Bool.and_eq_true]
  rw [guessKeep_of_no_misplaced _ _ hnoMisplaced hnoBoth]


/-- C4 at the guess ARGUE (A Correct, R, G, U, E Wrong) over AMINO, APPLE,
ANGRY, BLAST, ABBOT: AMINO and ABBOT stay live. -/
theorem guess_without_misplaced_exact_witness :
    promptGuess true argueBefore ["ARGUE", "c", "w", "w", "w", "w"]
      = .returned argueGuess argueAfter [] ∧
    (argueAfter.dictionaryWords.length = argueBefore.dictionaryWords.length ∧
    ∀ (i : Nat) (dw : DictionaryWord), argueBefore.dictionaryWords[i]? = some dw →
      ∃ dw' : DictionaryWord, argueAfter.dictionaryWords[i]? = some dw' ∧
        dw'.Letters = dw.Letters ∧ dw'.Value = dw.Value ∧
        (dw'.Valid = true ↔ dw.Valid = true ∧
          (∀ (k : Nat) (p : GuessPosition), argueGuess.Positions[k]? = some p →
            p.Status = GuessPositionCorrect → dw.Letters[k]? = some p.Letter) ∧
          (∀ p ∈ argueGuess.Positions, p.Status = GuessPositionWrong →
            p.Letter ∉ dw.Letters))) :=
  ⟨by decide,
    guess_without_misplaced_exact argueBefore ["ARGUE", "c", "w", "w", "w", "w"] argueGuess
      argueAfter [] (by decide) (by decide) (by decide) (by decide)⟩

/-- C5. Misplaced precedence: when an accepted real guess marks the letter
`L` Wrong at one position and Misplaced at another, every record live
afterwards contains `L`, and the dictionary is the one that the same guess
with every Wrong mark on `L` replaced by Misplaced leaves. -/
theorem wrong_and_misplaced_is_misplaced (state : State) (L : Char)
    (input₁ : List String) (guess₁ : Guess) (state₁ : State) (rest₁ : List String)
    (input₂ : List String) (guess₂ : Guess) (state₂ : State) (rest₂ : List String)
    (hrun₁ : promptGuess true state input₁ = .returned guess₁ state₁ rest₁)
    (hvalid₁ : guess₁.Valid = true)
    (_hwrong : ∃ p ∈ guess₁.Positions, p.Letter = L ∧ p.Status = GuessPositionWrong)
    (hmisplaced : ∃ p ∈ guess₁.Positions, p.Letter = L ∧ p.Status = GuessPositionMisplaced)
    (hrun₂ : promptGuess true state input₂ = .returned guess₂ state₂ rest₂)
    (hvalid₂ : guess₂.Valid = true)
    (hsame : guess₂.Positions = wrongToMisplaced L guess₁.Positions) :
    (∀ dw ∈ state₁.dictionaryWords, dw.Valid = true → L ∈ dw.Letters) ∧
    state₂.dictionaryWords = state₁.dictionaryWords := by
  obtain ⟨_, _, hws₁, _, _⟩ := promptGuess_accepted input₁ state guess₁ state₁ rest₁ hrun₁ hvalid₁
  obtain ⟨_, _, hws₂, _, _⟩ := promptGuess_accepted input₂ state guess₂ state₂ rest₂ hrun₂ hvalid₂
  obtain ⟨p0, hp0, hl0, hs0⟩ := hmisplaced
  constructor
  · intro dw hdw hlive
    rw [hws₁] at hdw
    have hkeep := mem_restrict_valid hdw hlive
    simp only [guessKeep, Bool.and_eq_true] at hkeep
    rw [← hl0]
    exact (misplacedKeep_iff _ _).1 hkeep.2.1 p0 hp0 hs0
  · rw [hws₁, hws₂, hsame,
      guessKeep_wrongToMisplaced L _ ((hasStatus_iff _ _ _).2 ⟨p0, hp0, hl0, hs0⟩)]

/-- C5 at the guess SUSHI with the first S Wrong and the second Misplaced,
against SUSHI with both S Misplaced, over BLAST, WORLD, STOMP, MASON: both
leave BLAST alone live. -/
theorem wrong_and_misplaced_is_misplaced_witness :
    promptGuess true sushiBefore ["SUSHI", "w", "w", "m", "w", "w"]
      = .returned sushiGuess
          { dictionaryWords := sushiWords
            currentGuess := 1
            guesses := [sushiGuess, zeroGuess, zeroGuess, zeroGuess, zeroGuess] } [] ∧
    promptGuess true sushiBefore ["SUSHI", "m", "w", "m", "w", "w"]
      = .returned sushiGuessMisplaced
          { dictionaryWords := sushiWords
            currentGuess := 1
            guesses := [sushiGuessMisplaced, zeroGuess, zeroGuess, zeroGuess, zeroGuess] } [] ∧
    ((∀ dw ∈ sushiWords, dw.Valid = true → 'S' ∈ dw.Letters) ∧ sushiWords = sushiWords) :=
  ⟨by decide, by decide,
    wrong_and_misplaced_is_misplaced sushiBefore 'S'
      ["SUSHI", "w", "w", "m", "w", "w"] sushiGuess
      { dictionaryWords := sushiWords
        currentGuess := 1
        guesses := [sushiGuess, zeroGuess, zeroGuess, zeroGuess, zeroGuess] } []
      ["SUSHI", "m", "w", "m", "w", "w"] sushiGuessMisplaced
      { dictionaryWords := sushiWords
        currentGuess := 1
        guesses := [sushiGuessMisplaced, zeroGuess, zeroGuess, zeroGuess, zeroGuess] } []
      (by decide) (by decide) (by decide) (by decide) (by decide) (by decide) (by decide)⟩

/-- C6. A letter marked Misplaced at position `p` of an accepted real guess:
every record live afterwards contains the letter and does not have it at
position `p`. -/
theorem misplaced_letter_present_elsewhere (state : State) (input : List String)
    (guess : Guess) (state' : State) (rest : List String) (p : Nat) (L : Char)
    (hrun : promptGuess true state input = .returned guess state' rest)
    (hvalid : guess.Valid = true)
    (hmisplaced : guess.Positions[p]? = some ⟨L, GuessPositionMisplaced⟩) :
    ∀ dw ∈ state'.dictionaryWords, dw.Valid = true →
      L ∈ dw.Letters ∧ dw.Letters[p]? ≠ some L := by
  obtain ⟨_, _, hws, _, _⟩ := promptGuess_accepted input state guess state' rest hrun hvalid
  intro dw hdw hlive
  rw [hws] at hdw
  have hkeep := mem_restrict_valid hdw hlive
  simp only [guessKeep, Bool.and_eq_true] at hkeep
  obtain ⟨hpos, hmis, _⟩ := hkeep
  constructor
  · exact (misplacedKeep_iff _ _).1 hmis _ (List.getElem?_mem hmisplaced) rfl
  · have := (positionsKeep_iff _ _ 0).1 hpos p _ hmisplaced
    rw [positionKeep_misplaced] at this
    simpa using this

/-- C6 at the guess SUSHI with the second S (index 2) Misplaced, over BLAST,
WORLD, STOMP, MASON: BLAST alone stays live. -/
theorem misplaced_letter_present_elsewhere_witness :
    promptGuess true sushiBefore ["SUSHI", "w", "w", "m", "w", "w"]
      = .returned sushiGuess
          { dictionaryWords := sushiWords
            currentGuess := 1
            guesses := [sushiGuess, zeroGuess, zeroGuess, zeroGuess, zeroGuess] } [] ∧
    sushiGuess.Positions[2]? = some ⟨'S', GuessPositionMisplaced⟩ ∧
    ∀ dw ∈ sushiWords, dw.Valid = true → 'S' ∈ dw.Letters ∧ dw.Letters[2]? ≠ some 'S' :=
  ⟨by decide, by decide,
    misplaced_letter_present_elsewhere sushiBefore ["SUSHI", "w", "w", "m", "w", "w"]
      sushiGuess
      { dictionaryWords := sushiWords
        currentGuess := 1
        guesses := [sushiGuess, zeroGuess, zeroGuess, zeroGuess, zeroGuess] }
      [] 2 'S' (by decide) (by decide) (by decide)⟩

/-- C7. Frame of `scrubWord`: the dictionary keeps its length; a record whose
letters spell `word` is not live afterwards; every other record is unchanged
(flag, letters and index). Excluding CRANE clears the CRANE records and
leaves CRATE as it was. -/
theorem scrubWord_frame (word : String) (dictionaryWords : List DictionaryWord) :
    (scrubWord word dictionaryWords).length = dictionaryWords.length ∧
    (∀ (i : Nat) (dw : DictionaryWord), dictionaryWords[i]? = some dw →
      (dw.getWord = word →
        (scrubWord word dictionaryWords)[i]? = some { dw with Valid := false }) ∧
      (dw.getWord ≠ word → (scrubWord word dictionaryWords)[i]? = some dw)) ∧
    scrubWord "CRANE"
        [⟨0, true, "CRANE".toList⟩, ⟨0, true, "CRATE".toList⟩, ⟨0, false, "BRAVE".toList⟩,
          ⟨0, true, "CRANE".toList⟩]
      = [⟨0, false, "CRANE".toList⟩, ⟨0, true, "CRATE".toList⟩, ⟨0, false, "BRAVE".toList⟩,
          ⟨0, false, "CRANE".toList⟩] := by
  refine ⟨by simp [scrubWord], ?_, by decide⟩
  intro i dw hi
  constructor
  · intro h
    simp [scrubWord, hi, h]
  · intro h
    simp [scrubWord, hi, h]

/-- C8. `scrubPositionCorrect`: a record is live afterwards exactly when it
was live before and its letter at `position` is `letter`; letters, value and
index are kept. Of the live words CRANE, CRATE, BRAVE, retaining A at
position 2 keeps all three, and then retaining C at position 0 keeps CRANE
and CRATE only. -/
theorem scrubPositionCorrect_live_iff (position : Nat) (letter : Char)
    (dictionaryWords : List DictionaryWord) :
    (scrubPositionCorrect position letter dictionaryWords).length = dictionaryWords.length ∧
    (∀ (i : Nat) (dw : DictionaryWord), dictionaryWords[i]? = some dw →
      ∃ dw' : DictionaryWord, (scrubPositionCorrect position letter dictionaryWords)[i]? = some dw' ∧
        dw'.Letters = dw.Letters ∧ dw'.Value = dw.Value ∧
        (dw'.Valid = true ↔ dw.Valid = true ∧ dw.Letters[position]? = some letter)) ∧
    scrubPositionCorrect 2 'A'
        [⟨0, true, "CRANE".toList⟩, ⟨0, true, "CRATE".toList⟩, ⟨0, true, "BRAVE".toList⟩]
      = [⟨0, true, "CRANE".toList⟩, ⟨0, true, "CRATE".toList⟩, ⟨0, true, "BRAVE".toList⟩] ∧
    scrubPositionCorrect 0 'C' (scrubPositionCorrect 2 'A'
        [⟨0, true, "CRANE".toList⟩, ⟨0, true, "CRATE".toList⟩, ⟨0, true, "BRAVE".toList⟩])
      = [⟨0, true, "CRANE".toList⟩, ⟨0, true, "CRATE".toList⟩, ⟨0, false, "BRAVE".toList⟩] := by
  refine ⟨by simp [scrubPositionCorrect], ?_, by decide, by decide⟩
  intro i dw hi
  rw [scrubPositionCorrect_eq_restrict, restrict_getElem?, hi]
  exact ⟨_, rfl, rfl, rfl, by simp⟩

/-- C9. `scrubLetterMustBePresent`: a record is live afterwards exactly when
it was live before and `letter` occurs among its letters; in particular a
record that was not live stays not live. Letters, value and index are kept. -/
theorem scrubLetterMustBePresent_live_iff (letter : Char)
    (dictionaryWords : List DictionaryWord) :
    (scrubLetterMustBePresent letter dictionaryWords).length = dictionaryWords.length ∧
    ∀ (i : Nat) (dw : DictionaryWord), dictionaryWords[i]? = some dw →
      ∃ dw' : DictionaryWord, (scrubLetterMustBePresent letter dictionaryWords)[i]? = some dw' ∧
        dw'.Letters = dw.Letters ∧ dw'.Value = dw.Value ∧
        (dw'.Valid = true ↔ dw.Valid = true ∧ letter ∈ dw.Letters) := by
  refine ⟨by simp [scrubLetterMustBePresent], ?_⟩
  intro i dw hi
  rw [scrubLetterMustBePresent_eq_restrict, restrict_getElem?, hi]
  exact ⟨_, rfl, rfl, rfl, by simp⟩

/-- C10 fails on the code. From the globals of `init` over the live words
STUDY and MOIST, five guesses BLANK (all Wrong) are accepted and fill the
history; the sixth guess, STUDY with every letter Correct, is not turned
down: its statuses are read and scrub the dictionary (MOIST is no longer
live), and then the store into the full history panics. -/
theorem sixth_guess_panics_after_scrubbing :
    afterBlank 0 = initState [⟨0, true, "STUDY".toList⟩, ⟨0, true, "MOIST".toList⟩] ∧
    promptGuess true (afterBlank 0) ["BLANK", "w", "w", "w", "w", "w"]
      = .returned blankGuess (afterBlank 1) [] ∧
    promptGuess true (afterBlank 1) ["BLANK", "w", "w", "w", "w", "w"]
      = .returned blankGuess (afterBlank 2) [] ∧
    promptGuess true (afterBlank 2) ["BLANK", "w", "w", "w", "w", "w"]
      = .returned blankGuess (afterBlank 3) [] ∧
    promptGuess true (afterBlank 3) ["BLANK", "w", "w", "w", "w", "w"]
      = .returned blankGuess (afterBlank 4) [] ∧
    promptGuess true (afterBlank 4) ["BLANK", "w", "w", "w", "w", "w"]
      = .returned blankGuess (afterBlank 5) [] ∧
    (afterBlank 5).guesses = List.replicate 5 blankGuess ∧
    promptGuess true (afterBlank 5) ["STUDY", "c", "c", "c", "c", "c"]
      = .panicked
          { dictionaryWords := [⟨0, true, "STUDY".toList⟩, ⟨0, false, "MOIST".toList⟩]
            currentGuess := 5
            guesses := List.replicate 5 blankGuess } := by
  refine ⟨by decide, by decide, by decide, by decide, by decide, by decide, by decide,
    by decide⟩

/-- C16. `showTopPossibilities` prints exactly the first min(10, number of
live records) live words, in the order of the dictionary, skipping the
records that are not live, and leaves the dictionary as it was. Each printed
word is the string of the letters of its record. Over the dictionary CRANE
(live), BRAVE (not live), CRATE (live) it prints CRANE and CRATE; over
`topExample`, with twelve live records, it prints the first ten of them and
neither ABOVE nor AGREE. -/
theorem showTopPossibilities_first_ten (dictionaryWords : List DictionaryWord) :
    (showTopPossibilities dictionaryWords).1
      = (List.map (fun dw => String.mk dw.Letters)
          (List.filter (fun dw => dw.Valid) dictionaryWords)).take 10 ∧
    (showTopPossibilities dictionaryWords).1.length
      = min 10 (dictionaryWords.filter fun dw => dw.Valid).length ∧
    (showTopPossibilities dictionaryWords).2 = dictionaryWords ∧
    showTopPossibilities
        [⟨0, true, "CRANE".toList⟩, ⟨0, false, "BRAVE".toList⟩, ⟨0, true, "CRATE".toList⟩]
      = (["CRANE", "CRATE"],
          [⟨0, true, "CRANE".toList⟩, ⟨0, false, "BRAVE".toList⟩, ⟨0, true, "CRATE".toList⟩]) ∧
    showTopPossibilities topExample
      = (["ABOUT", "ACTOR", "ADULT", "AFTER", "AGAIN", "AGENT", "AHEAD", "ALARM", "ALBUM",
          "ALERT"], topExample) := by
  have h := showTopLoop_eq dictionaryWords 0 (by omega)
  have hl : liveWords dictionaryWords
      = List.map (fun dw => String.mk dw.Letters)
          (List.filter (fun dw => dw.Valid) dictionaryWords) := by
    unfold liveWords
    congr 1
    funext dw
    exact getWord_eq dw
  refine ⟨?_, ?_, rfl, by decide, by decide⟩
  · show showTopLoop dictionaryWords 0 = _
    rw [h, hl]
  · show (showTopLoop dictionaryWords 0).length = _
    rw [h]
    simp [liveWords]

/-- C17. Idempotence: `scrubWord`, `scrubPositionWrong` and
`scrubPositionCorrect` applied twice in a row with the same arguments leave
the dictionary that one application leaves. -/
theorem position_and_word_scrubs_idempotent (dictionaryWords : List DictionaryWord)
    (word : String) (position : Nat) (letter : Char) :
    scrubWord word (scrubWord word dictionaryWords) = scrubWord word dictionaryWords ∧
    scrubPositionWrong position letter (scrubPositionWrong position letter dictionaryWords)
      = scrubPositionWrong position letter dictionaryWords ∧
    scrubPositionCorrect position letter (scrubPositionCorrect position letter dictionaryWords)
      = scrubPositionCorrect position letter dictionaryWords := by
  simp only [scrubWord_eq_restrict, scrubPositionWrong_eq_restrict,
    scrubPositionCorrect_eq_restrict, restrict_idem, and_self]

/-- C18. Order independence: any two elementary scrub operations, with any
arguments, leave the same dictionary in either order. -/
theorem scrub_operations_commute (a b : ScrubOp) (dictionaryWords : List DictionaryWord) :
    a.apply (b.apply dictionaryWords) = b.apply (a.apply dictionaryWords) := by
  obtain ⟨keepA, hA⟩ := a.apply_eq_restrict
  obtain ⟨keepB, hB⟩ := b.apply_eq_restrict
  rw [hA, hB, hA, hB, restrict_comm]

/-- C11 as stated fails. The word CAN'T is rejected at its apostrophe, but
the statuses entered for C, A and N (all Correct) have been applied by then:
BRAVE is no longer live although the guess was not accepted. History and
round are unchanged. -/
theorem malformed_guess_scrubs_before_rejection :
    promptGuess true cantBefore ["CAN'T", "c", "c", "c"] = .returned cantGuess cantAfter [] ∧
    cantGuess.Valid = false ∧
    cantAfter.dictionaryWords ≠ cantBefore.dictionaryWords ∧
    1 ∈ liveSet cantBefore.dictionaryWords ∧ 1 ∉ liveSet cantAfter.dictionaryWords := by
  refine ⟨by decide, by decide, by decide, ⟨_, rfl, rfl⟩, ?_⟩
  rintro ⟨dw, h1, h2⟩
  simp only [cantAfter, initState, List.getElem?_cons_succ, List.getElem?_cons_zero,
    Option.some.injEq] at h1
  subst h1
  simp at h2

/-- C11, amended. A word whose length is not five is dropped and the prompt
repeats with the globals untouched; a word of length five whose first
character is not a letter is returned as not valid with the globals
untouched; and whenever a real guess is returned as not valid, the history
and the round are unchanged and no record has become live, the dictionary
being the one left by the scrubs of the statuses entered for the letters
that stand before the first character that is not a letter. -/
theorem malformed_guess_effect (state : State) :
    (∀ (word : String) (input : List String), word ≠ "q" → word ≠ "h" → byteLen word ≠ 5 →
      promptGuess true state (word :: input) = promptGuess true state input) ∧
    (∀ (word : String) (input : List String) (c : Char) (cs : List Char),
      byteLen word = 5 → word.toList = c :: cs → isLetter c = false →
      promptGuess true state (word :: input) = .returned newGuess state input) ∧
    (∀ (input : List String) (guess : Guess) (state' : State) (rest : List String),
      promptGuess true state input = .returned guess state' rest → guess.Valid = false →
      state'.currentGuess = state.currentGuess ∧ state'.guesses = state.guesses ∧
      state'.dictionaryWords
        = restrict (positionsKeep 0 guess.Positions) state.dictionaryWords ∧
      liveSet state'.dictionaryWords ⊆ liveSet state.dictionaryWords) := by
  refine ⟨?_, ?_, ?_⟩
  · intro word input hq hh hlen
    rw [promptGuess]
    simp [hq, hh, hlen]
  · intro word input c cs hlen hword hletter
    have hq : word ≠ "q" := by
      rintro rfl
      revert hlen
      decide
    have hh : word ≠ "h" := by
      rintro rfl
      revert hlen
      decide
    rw [promptGuess, if_neg hq, if_neg hh, if_neg (not_not.2 hlen), hword, guessLoop,
      positionLoop_not_letter _ _ _ _ _ _ hletter]
    rfl
  · intro input guess state' rest hrun hinvalid
    obtain ⟨h1, h2, h3⟩ := promptGuess_rejected input state guess state' rest hrun hinvalid
    refine ⟨h1, h2, h3, ?_⟩
    rw [h3]
    exact liveSet_restrict _ _

/-- C11 amended, at the word CAN'T with C, A, N Correct over CANDY and BRAVE:
the round stays 0, the history stays empty, and BRAVE is scrubbed by the
status of C. -/
theorem malformed_guess_effect_witness :
    promptGuess true cantBefore ["CAN'T", "c", "c", "c"] = .returned cantGuess cantAfter [] ∧
    (cantAfter.currentGuess = cantBefore.currentGuess ∧
      cantAfter.guesses = cantBefore.guesses ∧
      cantAfter.dictionaryWords
        = restrict (positionsKeep 0 cantGuess.Positions) cantBefore.dictionaryWords ∧
      liveSet cantAfter.dictionaryWords ⊆ liveSet cantBefore.dictionaryWords) :=
  ⟨by decide,
    (malformed_guess_effect cantBefore).2.2 ["CAN'T", "c", "c", "c"] cantGuess cantAfter []
      (by decide) (by decide)⟩

/-- C19 as stated fails. In the guess ARGUE with A Correct and R, G, U, E
Wrong every occurrence of A is Correct, yet ALPHA, which has A at index 4
too, is live afterwards: the complete-letter loop passes over every letter
that is not a key of `wrongLetters`. -/
theorem correct_only_letter_not_confined :
    promptGuess true (initState [⟨0, true, "ALPHA".toList⟩])
        ["ARGUE", "c", "w", "w", "w", "w"] = .returned argueGuess alphaAfter [] ∧
    argueGuess.Valid = true ∧
    (∀ p ∈ argueGuess.Positions, p.Letter = 'A' → p.Status = GuessPositionCorrect) ∧
    ¬ (∀ dw ∈ alphaAfter.dictionaryWords, dw.Valid = true →
        ∀ k : Fin 5, dw.Letters[k.val]? = some 'A' →
          argueGuess.Positions[k.val]? = some ⟨'A', GuessPositionCorrect⟩) := by
  refine ⟨by decide, by decide, by decide, by decide⟩

/-- C19, amended. For an accepted real guess and a letter `L` whose
occurrences in the guess are all marked Correct: every record live
afterwards has `L` at each position where the guess marked it Correct; and
the complete-letter pass makes no demand on `L`: a record that is live
before the guess stays live, unchanged, whenever it passes the per-position
tests of the guess (the letter of every Correct position in place, the
letter of no Wrong or Misplaced position at that position), contains every
letter that the guess marks Misplaced, and has each letter other than `L`
that the guess marks Wrong only where the guess marks that letter Correct,
unless the guess marks that letter Misplaced too. No condition bears on the
positions at which the record has `L` beyond the per-position tests. In the
complete-letter loop itself, run with the maps that lines 354-374 build for
the guess over any dictionary, `L` is not a key of `wrongLetters`, and at an
occurrence of `L` the loop goes on to the next letter with the flag of the
record as it was. -/
theorem correct_only_letter_fixed_at_marked_positions (state : State)
    (input : List String) (guess : Guess) (state' : State) (rest : List String) (L : Char)
    (hrun : promptGuess true state input = .returned guess state' rest)
    (hvalid : guess.Valid = true)
    (hall : ∀ p ∈ guess.Positions, p.Letter = L → p.Status = GuessPositionCorrect) :
    (∀ (k : Nat), guess.Positions[k]? = some ⟨L, GuessPositionCorrect⟩ →
      ∀ dw ∈ state'.dictionaryWords, dw.Valid = true → dw.Letters[k]? = some L) ∧
    (∀ (i : Nat) (dw : DictionaryWord), state.dictionaryWords[i]? = some dw →
      dw.Valid = true →
      (∀ (k : Nat) (p : GuessPosition), guess.Positions[k]? = some p →
        (p.Status = GuessPositionCorrect → dw.Letters[k]? = some p.Letter) ∧
        (p.Status = GuessPositionWrong ∨ p.Status = GuessPositionMisplaced →
          dw.Letters[k]? ≠ some p.Letter)) →
      (∀ p ∈ guess.Positions, p.Status = GuessPositionMisplaced → p.Letter ∈ dw.Letters) →
      (∀ (j : Nat) (l : Char), dw.Letters[j]? = some l → l ≠ L →
        (∃ p ∈ guess.Positions, p.Letter = l ∧ p.Status = GuessPositionWrong) →
        (∃ p ∈ guess.Positions, p.Letter = l ∧ p.Status = GuessPositionMisplaced) ∨
          guess.Positions[j]? = some ⟨l, GuessPositionCorrect⟩) →
      state'.dictionaryWords[i]? = some dw) ∧
    (∀ (dictionaryWords : List DictionaryWord) (j : Nat) (letters : List Char) (valid : Bool),
      let k := classifyLoop 0 guess.Positions ⟨fun _ => none, fun _ => none, [], dictionaryWords⟩
      let k := deleteMisplaced k.misplacedLetters k
      k.wrongLetters L = none ∧
      completeLetterLoop k.wrongLetters k.correctLetterPositions j (L :: letters) valid
        = completeLetterLoop k.wrongLetters k.correctLetterPositions (j + 1) letters valid) := by
  obtain ⟨_, _, hws, _, _⟩ := promptGuess_accepted input state guess state' rest hrun hvalid
  have hno : hasStatus guess.Positions L GuessPositionWrong = false := by
    rw [Bool.eq_false_iff]
    intro h
    obtain ⟨p, hp, hl, hs⟩ := (hasStatus_iff _ _ _).1 h
    have := hall p hp hl
    rw [hs] at this
    simp [GuessPositionWrong, GuessPositionCorrect] at this
  refine ⟨?_, ?_, ?_⟩
  · intro k hk dw hdw hlive
    rw [hws] at hdw
    have hkeep := mem_restrict_valid hdw hlive
    simp only [guessKeep, Bool.and_eq_true] at hkeep
    have := (positionsKeep_iff _ _ 0).1 hkeep.1 k _ hk
    rw [positionKeep_correct] at this
    simpa using this
  · intro i dw hi hlive hpos hmis hcl
    have hkeep : guessKeep guess.Positions dw.Letters = true := by
      simp only [guessKeep, Bool.and_eq_true]
      refine ⟨?_, ?_, ?_⟩
      · rw [positionsKeep_iff]
        intro k p hk
        rw [Nat.zero_add]
        obtain ⟨hc, hw⟩ := hpos k p hk
        unfold positionKeep
        by_cases h1 : p.Status = GuessPositionWrong ∨ p.Status = GuessPositionMisplaced
        · rw [if_pos h1]
          simpa using hw h1
        · rw [if_neg h1]
          by_cases h2 : p.Status = GuessPositionCorrect
          · rw [if_pos h2]
            simpa using hc h2
          · rw [if_neg h2]
      · exact (misplacedKeep_iff _ _).2 hmis
      · apply completeLetterLoop_of_allowed
        intro j l hj hwrong
        obtain ⟨hw, hm⟩ := (wrongOf_isSome _ l).1 hwrong
        have hlL : l ≠ L := by
          intro e
          rw [e, hno] at hw
          exact Bool.false_ne_true hw
        obtain ⟨q, hq, hql, hqs⟩ := (hasStatus_iff _ _ _).1 hw
        rw [Nat.zero_add]
        rcases hcl j l hj hlL ⟨q, hq, hql, hqs⟩ with ⟨p, hp, hpl, hps⟩ | hc
        · rw [Bool.eq_false_iff] at hm
          exact absurd ((hasStatus_iff _ _ _).2 ⟨p, hp, hpl, hps⟩) hm
        · have hmem := mem_correctIndices guess.Positions l 0 j _ hc rfl rfl
          rw [Nat.zero_add] at hmem
          refine ⟨correctIndices 0 guess.Positions l, ?_, hmem⟩
          unfold correctOf
          rw [hm]
          have hne : correctIndices 0 guess.Positions l ≠ [] := by
            intro e
            rw [e] at hmem
            simp at hmem
          simp [hne]
    rw [hws, restrict_getElem?, hi]
    obtain ⟨value, valid, letters⟩ := dw
    simp only at hlive hkeep
    simp [hlive, hkeep]
  · intro dictionaryWords j letters valid
    have hw := classified_wrongLetters guess.Positions
      ⟨fun _ => none, fun _ => none, [], dictionaryWords⟩ rfl rfl
    have hL : wrongOf guess.Positions L = none := by
      unfold wrongOf
      simp [hno]
    simp only [hw, hL, completeLetterLoop]
    simp

/-- C19 amended, at the guess ARGUE over ALPHA: A is Correct at index 0 only
and ALPHA, with A at indices 0 and 4, passes every test named in the
statement, so it stays live. -/
theorem correct_only_letter_fixed_at_marked_positions_witness :
    promptGuess true (initState [⟨0, true, "ALPHA".toList⟩])
        ["ARGUE", "c", "w", "w", "w", "w"] = .returned argueGuess alphaAfter [] ∧
    argueGuess.Valid = true ∧
    (∀ p ∈ argueGuess.Positions, p.Letter = 'A' → p.Status = GuessPositionCorrect) ∧
    (∀ (k : Nat), argueGuess.Positions[k]? = some ⟨'A', GuessPositionCorrect⟩ →
      ∀ dw ∈ alphaAfter.dictionaryWords, dw.Valid = true → dw.Letters[k]? = some 'A') ∧
    alphaAfter.dictionaryWords[0]? = some ⟨0, true, "ALPHA".toList⟩ ∧
    "ALPHA".toList[4]? = some 'A' ∧
    argueGuess.Positions[4]? = some ⟨'E', GuessPositionWrong⟩ :=
  have h := correct_only_letter_fixed_at_marked_positions
      (initState [⟨0, true, "ALPHA".toList⟩])
      ["ARGUE", "c", "w", "w", "w", "w"] argueGuess alphaAfter [] 'A'
      (by decide) (by decide) (by decide)
  ⟨by decide, by decide, by decide, h.1,
    h.2.1 0 ⟨0, true, "ALPHA".toList⟩ (by decide) (by decide)
      (by
        intro k p hk
        rcases k with _ | _ | _ | _ | _ | k
        all_goals simp [argueGuess] at hk
        all_goals subst hk
        all_goals decide)
      (by decide)
      (by
        intro j l hj hl
        rcases j with _ | _ | _ | _ | _ | j
        all_goals simp at hj
        all_goals subst hj
        all_goals revert hl
        all_goals decide),
    by decide, by decide⟩

/-- C12 fails on the code. The status `h` shows the help and then, having no
`continue`, falls out of the switch with the status still Unknown: the guess
CRANE with statuses h, w, w, w, w is accepted and stored in the history with
an Unknown first position, and the command `b` then ends in the
`log.Fatalf` of its status switch. -/
theorem help_status_stores_unknown_position (color : Palette) :
    promptGuess true (initState [⟨0, true, "MOIST".toList⟩])
        ["CRANE", "h", "w", "w", "w", "w"] = .returned craneHelpGuess craneHelpAfter [] ∧
    craneHelpGuess.Valid = true ∧
    craneHelpAfter.guesses[0]? = some craneHelpGuess ∧
    craneHelpGuess.Positions[0]? = some ⟨'C', GuessPositionUnknown⟩ ∧
    boardCommand color craneHelpAfter = .fatal [] GuessPositionUnknown := by
  refine ⟨by decide, by decide, by decide, by decide, ?_⟩
  rfl

/-- C13 fails on the code. The entry café has four characters and five bytes:
the filter `len(word) != 5` lets it through, `newDictionaryWord` stores its
runes at their byte offsets, and the dictionary holds a live record with the
letters C, A, F, É and a zero rune, although the list has no five-character
entry at all. The entry ɐɐa has three characters and five bytes too; with an
upper-casing that takes ɐ (U+0250) to Ɐ (U+2C6F, three bytes), as
`unicode.ToUpper` does, its third rune stands at byte offset 6 and the store
of `newDictionaryWord` is out of range: `init` does not return. -/
theorem five_byte_entry_is_loaded :
    init unicodeToUpper ["café"] []
      = some (initState [⟨0, true, ['C', 'A', 'F', 'É', Char.ofNat 0]⟩]) ∧
    "café".length = 4 ∧ byteLen "café" = 5 ∧
    liveWords (initState [⟨0, true, ['C', 'A', 'F', 'É', Char.ofNat 0]⟩]).dictionaryWords
      ≠ (((["café"].filter fun w => decide (w.length = 5)).map (ToUpper unicodeToUpper)).filter
          fun w => decide (w ∉ ([] : List String))) ∧
    "ɐɐa".length = 3 ∧ byteLen "ɐɐa" = 5 ∧
    ∀ upper : Char → Char, upper 'ɐ' = 'Ɐ' → init upper ["ɐɐa"] [] = none := by
  refine ⟨by decide, by decide, by decide, by decide, by decide, by decide, ?_⟩
  intro upper h
  have hb : byteLen "ɐɐa" = 5 := by decide
  have hw : ToUpper upper "ɐɐa" = String.mk ['Ɐ', 'Ɐ', upper 'a'] := by
    simp [ToUpper, h]
  have hl : runeLen 'Ɐ' = 3 := by decide
  simp [init, loadLoop, hb, hw, newDictionaryWord, newDictionaryWordLoop, h, hl]

/-- The start-up over ASCII entries, where the byte length of an entry is
its number of characters: for a raw word list of ASCII entries and any
exclusion list, `init` returns, with round 0, and the live words, in order,
are exactly the upper-cased five-character entries of the list, in their
order, that are not equal to any line of the exclusion list (the lines are
compared as they stand). -/
theorem init_live_words_of_ascii (upper : Char → Char) (words answers : List String)
    (hupper : UpperOnAscii upper) (hascii : ∀ w ∈ words, IsAscii w) :
    ∃ state : State, init upper words answers = some state ∧
      state.currentGuess = 0 ∧
      liveWords state.dictionaryWords
        = (((words.filter fun w => decide (w.length = 5)).map (ToUpper upper)).filter
            fun w => decide (w ∉ answers)) := by
  unfold init
  rw [loadLoop_of_ascii upper hupper words [] hascii]
  refine ⟨_, rfl, rfl, ?_⟩
  show liveWords (answersLoop answers _) = _
  rw [answersLoop_eq_restrict, List.nil_append, liveWords_restrict_recordOf]
  congr 1
  funext w
  simp

/-- The start-up over the word list APPLE, berry, pear with the exclusion
list APPLE: BERRY alone is live. -/
theorem init_live_words_of_ascii_witness :
    init unicodeToUpper ["APPLE", "berry", "pear"] ["APPLE"]
      = some (initState [⟨0, false, "APPLE".toList⟩, ⟨0, true, "BERRY".toList⟩]) ∧
    liveWords [⟨0, false, "APPLE".toList⟩, ⟨0, true, "BERRY".toList⟩] = ["BERRY"] ∧
    ∃ state : State, init unicodeToUpper ["APPLE", "berry", "pear"] ["APPLE"] = some state ∧
      state.currentGuess = 0 ∧
      liveWords state.dictionaryWords
        = (((["APPLE", "berry", "pear"].filter fun w => decide (w.length = 5)).map
            (ToUpper unicodeToUpper)).filter fun w => decide (w ∉ ["APPLE"])) :=
  ⟨by decide, by decide,
    init_live_words_of_ascii unicodeToUpper ["APPLE", "berry", "pear"] ["APPLE"]
      unicodeToUpper_onAscii (by unfold IsAscii; decide)⟩

/-- C14 as stated fails. The entry don't has five bytes, so the load step
builds a record for it, and the record holds an apostrophe; `init` has no
test of the characters. -/
theorem apostrophe_entry_is_loaded :
    loadLoop unicodeToUpper ["don't"] [] = some [⟨0, true, "DON'T".toList⟩] ∧
    ¬ (∀ c ∈ "DON'T".toList, 'A'.toNat ≤ c.toNat ∧ c.toNat ≤ 'Z'.toNat) ∧
    ¬ (∀ c ∈ "don't".toList, isLetter c = true) := by
  refine ⟨by decide, by decide, by decide⟩

/-- C14, amended. For a raw word list of ASCII entries the load step builds
one record for every entry of five characters, in order, and none for the
others; the record has exactly five letters, the upper-cased characters of
its entry, and they are all among A-Z exactly when the entry consists of
Latin letters: the load step itself tests no character. -/
theorem load_records_of_ascii (upper : Char → Char) (words : List String)
    (hupper : UpperOnAscii upper) (hascii : ∀ w ∈ words, IsAscii w) :
    loadLoop upper words []
      = some ((words.filter fun w => decide (w.length = 5)).map (recordOf upper)) ∧
    ∀ w ∈ words, w.length = 5 →
      (recordOf upper w).Letters.length = 5 ∧
      (recordOf upper w).Letters = w.toList.map asciiUpper ∧
      ((∀ c ∈ (recordOf upper w).Letters, 'A'.toNat ≤ c.toNat ∧ c.toNat ≤ 'Z'.toNat)
        ↔ ∀ c ∈ w.toList, isLetter c = true) := by
  refine ⟨by rw [loadLoop_of_ascii upper hupper words [] hascii, List.nil_append], ?_⟩
  intro w hw h5
  have hmap : (recordOf upper w).Letters = w.toList.map asciiUpper := by
    unfold recordOf
    exact List.map_congr_left (fun c hc => hupper c (hascii w hw c hc))
  refine ⟨by rw [hmap, List.length_map]; exact h5, hmap, ?_⟩
  rw [hmap]
  have hA : 'A'.toNat = 65 := by decide
  have hZ : 'Z'.toNat = 90 := by decide
  have ha : 'a'.toNat = 97 := by decide
  have hz : 'z'.toNat = 122 := by decide
  have hone : ∀ c ∈ w.toList,
      ('A'.toNat ≤ (asciiUpper c).toNat ∧ (asciiUpper c).toNat ≤ 'Z'.toNat)
        ↔ isLetter c = true := by
    intro c hc
    have hlt := hascii w hw c hc
    rw [asciiUpper_toNat c hlt]
    unfold isLetter
    simp only [hA, hZ, ha, hz, Bool.or_eq_true, Bool.and_eq_true, decide_eq_true_eq]
    split <;> omega
  constructor
  · intro h c hc
    exact (hone c hc).1 (h _ (List.mem_map_of_mem _ hc))
  · intro h c hc
    obtain ⟨c0, hc0, rfl⟩ := List.mem_map.1 hc
    exact (hone c0 hc0).2 (h c0 hc0)

/-- C14 amended, at the word list don't, Apple, pear: records are built for
don't and Apple, none for pear. -/
theorem load_records_of_ascii_witness :
    loadLoop unicodeToUpper ["don't", "Apple", "pear"] []
      = some ((["don't", "Apple", "pear"].filter fun w => decide (w.length = 5)).map
          (recordOf unicodeToUpper)) ∧
    ∀ w ∈ ["don't", "Apple", "pear"], w.length = 5 →
      (recordOf unicodeToUpper w).Letters.length = 5 ∧
      (recordOf unicodeToUpper w).Letters = w.toList.map asciiUpper ∧
      ((∀ c ∈ (recordOf unicodeToUpper w).Letters,
          'A'.toNat ≤ c.toNat ∧ c.toNat ≤ 'Z'.toNat)
        ↔ ∀ c ∈ w.toList, isLetter c = true) :=
  load_records_of_ascii unicodeToUpper ["don't", "Apple", "pear"]
    unicodeToUpper_onAscii (by unfold IsAscii; decide)

/-- C15. In every dictionary that the program can hold and for every input
of five letters, the command `c` returns and reports the upper-cased word as
valid exactly when some live record has the upper-cased letters of the
input; records with the same letters have the same flag, which is why the
first matching record decides. -/
theorem check_command_reports_live_words (state : State) (word : String)
    (input : List String) (hreach : Reachable state.dictionaryWords)
    (hlen : word.length = 5) (hletters : ∀ c ∈ word.toList, isLetter c = true) :
    (∃ guess : Guess, checkCommand state (word :: input) = .returned guess state input ∧
      guess.getWord = String.mk (word.toList.map upperLetter) ∧
      (guess.Valid = true ↔ ∃ dw ∈ state.dictionaryWords,
        dw.Valid = true ∧ dw.Letters = word.toList.map upperLetter)) ∧
    (∀ a ∈ state.dictionaryWords, ∀ b ∈ state.dictionaryWords,
      a.Letters = b.Letters → a.Valid = b.Valid) := by
  obtain ⟨keep, hkeep⟩ := reachable_flag_of_letters hreach
  refine ⟨?_, fun a ha b hb hab => by rw [hkeep a ha, hkeep b hb, hab]⟩
  have hlist : word.toList.length = 5 := hlen
  match hw : word.toList, hlist with
  | [a, b, c, d, e], _ =>
    have hmem : ∀ x ∈ [a, b, c, d, e], isLetter x = true := fun x hx => hletters x (hw ▸ hx)
    have hrun := promptGuess_false_five state word input a b c d e hw
      (hmem a (by simp)) (hmem b (by simp)) (hmem c (by simp)) (hmem d (by simp))
      (hmem e (by simp))
    unfold checkCommand
    rw [hrun]
    simp only []
    refine ⟨_, rfl, ?_, ?_⟩
    · rw [guess_getWord_eq]
      rfl
    · simp only []
      rw [checkLoop_iff keep _ _ hkeep, guess_getWord_eq]
      constructor
      · rintro ⟨dw, hdw, hv, hword⟩
        refine ⟨dw, hdw, hv, ?_⟩
        rw [getWord_eq] at hword
        injection hword
      · rintro ⟨dw, hdw, hv, hl⟩
        refine ⟨dw, hdw, hv, ?_⟩
        rw [getWord_eq, hl]
        rfl

/-- C15 at the input world over BLAST, WORLD, WORLD after `scrubWord` of
WORLD: both WORLD records are dead and the command reports WORLD as not
valid. -/
theorem check_command_reports_live_words_witness :
    checkCommand worldScrubbed ["world"]
      = .returned ⟨false, [⟨'W', 0⟩, ⟨'O', 0⟩, ⟨'R', 0⟩, ⟨'L', 0⟩, ⟨'D', 0⟩]⟩
          worldScrubbed [] ∧
    ((∃ guess : Guess, checkCommand worldScrubbed ["world"]
        = .returned guess worldScrubbed [] ∧
      guess.getWord = String.mk ("world".toList.map upperLetter) ∧
      (guess.Valid = true ↔ ∃ dw ∈ worldScrubbed.dictionaryWords,
        dw.Valid = true ∧ dw.Letters = "world".toList.map upperLetter)) ∧
    (∀ a ∈ worldScrubbed.dictionaryWords, ∀ b ∈ worldScrubbed.dictionaryWords,
      a.Letters = b.Letters → a.Valid = b.Valid)) :=
  ⟨by decide,
    check_command_reports_live_words worldScrubbed "world" []
      (Reachable.scrub (ScrubOp.ofWord "WORLD") (Reachable.fresh _ (by decide)))
      (by decide) (by decide)⟩

/-- C20. Soundness against the scoring of the puzzle: when an accepted real
guess carries, at every position, the status that the puzzle gives for a
secret that is a live record of five letters, that record is unchanged, and
so still live, after the per-position scrubs and the finalization of the
guess. -/
theorem scored_guess_keeps_secret (state : State) (input : List String) (guess : Guess)
    (state' : State) (rest : List String) (i : Nat) (secret : DictionaryWord)
    (hrun : promptGuess true state input = .returned guess state' rest)
    (hvalid : guess.Valid = true)
    (hsecret : state.dictionaryWords[i]? = some secret)
    (hlive : secret.Valid = true)
    (hfive : secret.Letters.length = 5)
    (hscore : guess.Positions
      = score secret.Letters (guess.Positions.map fun p => p.Letter)) :
    state'.dictionaryWords[i]? = some secret := by
  obtain ⟨_, hpos, hws, _, _⟩ := promptGuess_accepted input state guess state' rest hrun hvalid
  have hkeep : guessKeep guess.Positions secret.Letters = true := by
    rw [hscore]
    apply guessKeep_score
    rw [List.length_map, hpos, hfive]
  rw [hws, restrict_getElem?, hsecret]
  obtain ⟨value, valid, letters⟩ := secret
  simp only at hlive hkeep
  subst hlive
  simp [hkeep]

/-- C20 at the secret CRANE and the guess EERIE, scored Wrong, Wrong,
Misplaced, Wrong, Correct, over BRINE, CRANE, ERASE, CRATE: CRANE, at index
1, is unchanged. -/
theorem scored_guess_keeps_secret_witness :
    promptGuess true eerieBefore ["EERIE", "w", "w", "m", "w", "c"]
      = .returned eerieGuess eerieAfter [] ∧
    eerieGuess.Positions = score "CRANE".toList "EERIE".toList ∧
    eerieAfter.dictionaryWords[1]? = some ⟨0, true, "CRANE".toList⟩ :=
  ⟨by decide, by decide,
    scored_guess_keeps_secret eerieBefore ["EERIE", "w", "w", "m", "w", "c"] eerieGuess
      eerieAfter [] 1 ⟨0, true, "CRANE".toList⟩
      (by decide) (by decide) (by decide) (by decide) (by decide) (by decide)⟩

end WordleHelper
